import Mathlib

/-!
Verification of `model_organization/config.py` (projects/experiments registry
with locked YAML persistence and path rewriting).

The embedding models:
  * YAML documents (`Value` / `VList` / `Obj`) — ordered mappings with string
    keys, sequences, scalars, plus the `Archive` string subclass
    (`Value.arch`, carrying its `project` attribute; the unused `time`
    attribute is omitted);
  * the POSIX path operations used by the source (`os.path.join`,
    `os.path.isabs`, `os.path.relpath` — the latter per `posixpath.relpath`,
    which normalizes both arguments against the current working directory);
  * the filesystem as seen by the code (`Fs`): file contents, directory
    listings, and write success/failure injection;
  * the lock/rename/write event traces of `safe_load` / `safe_dump` /
    `ExperimentsConfig.save` (`Ev`, `*_trace`);
  * `ExperimentsConfig.fix_paths` / `rel_paths` with Python's in-place,
    partial-mutation semantics: the result is the (possibly partially
    rewritten) document paired with an optional raised error;
  * the registry operations named by the claims (`exp_files`, `__init__`,
    `__getitem__`, `__setitem__`, `save` of both registries).

`model_organization/utils.py` is not part of the sources; its single use,
`utils.safe_list`, is modelled from the spec (see `safe_list` below).
-/

/-- Python exceptions that the modelled code can raise. -/
inductive Err where
  | keyError
  | indexError
  | typeError
  | ioError
deriving DecidableEq, Repr

mutual
/-- A YAML value as handled by the source: scalars, ordered sequences,
ordered mappings (string keys, as in the spec's data model), and the
`Archive` marker — a `six.text_type` subclass carrying a `project`
attribute (class default `None`, hence a `Value`). -/
inductive Value where
  | null
  | str (s : String)
  | int (n : Int)
  | bool (b : Bool)
  | seq (l : VList)
  | map (m : Obj)
  | arch (s : String) (project : Value)
deriving DecidableEq, Repr

/-- An ordered sequence of values. -/
inductive VList where
  | nil
  | cons (v : Value) (rest : VList)
deriving DecidableEq, Repr

/-- An ordered mapping (`OrderedDict`) from string keys to values. -/
inductive Obj where
  | nil
  | cons (k : String) (v : Value) (rest : Obj)
deriving DecidableEq, Repr
end

/-- First value stored under key `k` (`d[k]` / `d.get(k)`). -/
def Obj.find (k : String) : Obj → Option Value
  | .nil => none
  | .cons k' v rest => if k' = k then some v else Obj.find k rest

/-- `OrderedDict` assignment: replace the value at the first occurrence of
the key, else append a new entry at the end. -/
def Obj.set (k : String) (v : Value) : Obj → Obj
  | .nil => .cons k v .nil
  | .cons k' v' rest =>
    if k' = k then .cons k' v rest else .cons k' v' (Obj.set k v rest)

/-- The entries of an ordered mapping, as a list of pairs (`d.items()`). -/
def Obj.pairs : Obj → List (String × Value)
  | .nil => []
  | .cons k v rest => (k, v) :: Obj.pairs rest

/-- Whether a value is a realized mapping (`isinstance(v, dict)`). -/
def Value.isMap : Value → Bool
  | .map _ => true
  | _ => false

/-- Whether a value is an `Archive` marker (`isinstance(v, Archive)`). -/
def Value.isArch : Value → Bool
  | .arch _ _ => true
  | _ => false

/-- The text of a value that is a Python string — either a plain `str` or
the `Archive` subclass (`isinstance(v, six.string_types)`). -/
def Value.strContent : Value → Option String
  | .str s => some s
  | .arch s _ => some s
  | _ => none

/-- Whether a value is hashable (usable as a `dict` key): everything except
mappings and sequences. -/
def Value.hashable : Value → Bool
  | .map _ => false
  | .seq _ => false
  | _ => true

/-- Registries (`ProjectsConfig` / `ExperimentsConfig` contents) are ordered
mappings from names to values, modelled as association lists. -/
abbrev Reg := List (String × Value)

/-- First value stored under a name in a registry. -/
def regFind (st : Reg) (k : String) : Option Value :=
  match st with
  | [] => none
  | (k', v) :: rest => if k' = k then some v else regFind rest k

/-- `OrderedDict` assignment on a registry. -/
def regSet (st : Reg) (k : String) (v : Value) : Reg :=
  match st with
  | [] => [(k, v)]
  | (k', v') :: rest =>
    if k' = k then (k', v) :: rest else (k', v') :: regSet rest k v

/- ### POSIX path operations (`os.path` on a POSIX system) -/

/-- `os.path.isabs`: the path begins with a slash. -/
def isabs (s : String) : Bool :=
  s.data.head? == some '/' 

/-- Whether a character list ends with `'/'`. -/
def endsSlash (l : List Char) : Bool :=
  l.getLast? == some '/' 

/-- `os.path.join(a, b)` (posixpath, two arguments): an absolute `b` wins;
otherwise `b` is appended, inserting a slash unless `a` is empty or already
ends with one. -/
def joinp (a b : String) : String :=
  if isabs b then b
  else if a = "" then a ++ b
  else if endsSlash a.data then a ++ b
  else a ++ "/" ++ b

/-- Split a character list at every `'/'` (components of a path; empty
components are kept, as `str.split('/')` does). -/
def splitChars : List Char → List (List Char)
  | [] => [[]]
  | c :: cs =>
    if c = '/' then [] :: splitChars cs
    else
      match splitChars cs with
      | [] => [[c]]
      | p :: ps => (c :: p) :: ps

/-- Join components with `'/'` (inverse of `splitChars`). -/
def joinChars : List (List Char) → List Char
  | [] => []
  | [p] => p
  | p :: ps => p ++ '/' :: joinChars ps

/-- The `'/'`-separated components of a path string. -/
def parts (s : String) : List String :=
  (splitChars s.data).map String.mk

/-- Drop empty and `"."` components (what `normpath` discards). -/
def filtParts (ps : List String) : List String :=
  ps.filter fun p => p ≠ "" && p ≠ "."

/-- Resolve `".."` components of an absolute path against a stack of already
accepted components, as `posixpath.normpath` does (a `".."` at the root is
dropped).  Returns the accepted components in order. -/
def resolveAbs (stack : List String) : List String → List String
  | [] => stack.reverse
  | p :: ps => if p = ".." then resolveAbs stack.tail ps else resolveAbs (p :: stack) ps

/-- The non-empty components of `posixpath.abspath(p)` evaluated in working
directory `cwd`: relative paths are joined onto `cwd` and the result is
normalized. -/
def absComps (cwd p : String) : List String :=
  resolveAbs [] (filtParts (parts (if isabs p then p else joinp cwd p)))

/-- Length of the longest common prefix of two component lists
(`os.path.commonprefix` on a pair). -/
def commonLen : List String → List String → Nat
  | a :: as, b :: bs => if a = b then commonLen as bs + 1 else 0
  | _, _ => 0

/-- The component list `posixpath.relpath(p, start)` builds before joining. -/
def relComps (cwd p start : String) : List String :=
  let pl := absComps cwd p
  let sl := absComps cwd start
  let i := commonLen sl pl
  List.replicate (sl.length - i) ".." ++ pl.drop i

/-- `posixpath.relpath(p, start)` in working directory `cwd`. -/
def relpath (cwd p start : String) : String :=
  match relComps cwd p start with
  | [] => "."
  | ps => String.mk (joinChars (ps.map String.data))

/- ### sanity examples for the path model -/

example : joinp "/proj" "out" = "/proj/out" := rfl
example : joinp "/proj" "/abs" = "/abs" := rfl
example : joinp "/proj/" "out" = "/proj/out" := rfl
example : relpath "/" "/proj/out" "/proj" = "out" := rfl
example : relpath "/" "/abs" "/proj" = "../abs" := rfl
example : relpath "/" "/proj/a/./b" "/proj" = "a/b" := by decide
example : relpath "/" "/proj" "/proj" = "." := rfl

/- ### Path Normalizer: `ExperimentsConfig.fix_paths` / `rel_paths` -/

/-- `ExperimentsConfig.paths` — the fixed set of path-like keys. -/
def pathKeys : List String :=
  ["expdir", "src", "data", "input", "outdata", "outdir",
   "plot_output", "project_output"]

/-- Modelled from the spec: `utils.safe_list` (from `model_organization/utils.py`,
which is not among the sources) converts its argument to a list — a string
stays a one-element list, any other sequence becomes the list of its
elements, and a non-iterable value is wrapped into a one-element list. -/
def safe_list (v : Value) : VList :=
  match v with
  | .seq l => l
  | x => .cons x .nil

/-- `os.path.join(root, s)` where `root` is the resolved root value: joining
against a non-string root raises `TypeError`.  (`Archive` counts as a
string.) -/
def jnRoot (root : Value) (s : String) : Except Err String :=
  match root.strContent with
  | some r => .ok (joinp r s)
  | none => .error .typeError

/-- `os.path.relpath(p, root)` where `root` is the resolved root value. -/
def rpRoot (cwd : String) (p : String) (root : Value) : Except Err String :=
  match root.strContent with
  | some r => .ok (relpath cwd p r)
  | none => .error .typeError

/-- The in-place loop `for i in range(len(val)): val[i] = osp.join(root, val[i])`:
elements are rewritten one by one until a non-string element raises
`TypeError`; already rewritten elements keep their new value. -/
def vjoin (root : Value) : VList → VList × Option Err
  | .nil => (.nil, none)
  | .cons v t =>
    match v.strContent with
    | some s =>
      match jnRoot root s with
      | .ok j => let r := vjoin root t; (.cons (.str j) r.1, r.2)
      | .error e => (.cons v t, some e)
    | none => (.cons v t, some .typeError)

/-- The in-place loop `for i in range(len(val)): val[i] = osp.relpath(val[i], root)`. -/
def vrel (cwd : String) (root : Value) : VList → VList × Option Err
  | .nil => (.nil, none)
  | .cons v t =>
    match v.strContent with
    | some s =>
      match rpRoot cwd s root with
      | .ok j => let r := vrel cwd root t; (.cons (.str j) r.1, r.2)
      | .error e => (.cons v t, some e)
    | none => (.cons v t, some .typeError)

/-- The `elif key in paths` branch of `fix_paths` for a non-mapping value:
a relative string is joined onto the root; otherwise, if
`utils.safe_list(val)[0]` is a relative string, every element of the
sequence is joined in place (an empty sequence raises `IndexError` at the
`[0]`). -/
def fixLeaf (root : Value) (v : Value) : Value × Option Err :=
  match v with
  | .str s =>
    if isabs s then (v, none)
    else
      match jnRoot root s with
      | .ok j => (.str j, none)
      | .error e => (v, some e)
  | .arch s _ =>
    -- an Archive is an instance of six.string_types
    if isabs s then (v, none)
    else
      match jnRoot root s with
      | .ok j => (.str j, none)
      | .error e => (v, some e)
  | .seq .nil => (v, some .indexError)
  | .seq (.cons h t) =>
    match h.strContent with
    | some s0 =>
      if isabs s0 then (v, none)
      else
        let r := vjoin root (.cons h t)
        (.seq r.1, r.2)
    | none => (v, none)
  | _ => (v, none)

/-- The `elif key in paths` branch of `rel_paths` for a non-mapping value. -/
def relLeaf (cwd : String) (root : Value) (v : Value) : Value × Option Err :=
  match v with
  | .str s =>
    if isabs s then
      match rpRoot cwd s root with
      | .ok j => (.str j, none)
      | .error e => (v, some e)
    else (v, none)
  | .arch s _ =>
    -- an Archive is an instance of six.string_types
    if isabs s then
      match rpRoot cwd s root with
      | .ok j => (.str j, none)
      | .error e => (v, some e)
    else (v, none)
  | .seq .nil => (v, some .indexError)
  | .seq (.cons h t) =>
    match h.strContent with
    | some s0 =>
      if isabs s0 then
        let r := vrel cwd root (.cons h t)
        (.seq r.1, r.2)
      else (v, none)
    | none => (v, none)
  | _ => (v, none)

/-- The recursive body of `fix_paths` (root already resolved): iterate over
the entries of `d` in order; a mapping value is recursed into, a value under
a path-like key is rewritten by `fixLeaf`.  On the first raised error the
remaining entries are left untouched and the error propagates (Python
mutates `d` in place). -/
def fixO (root : Value) : Obj → Obj × Option Err
  | .nil => (.nil, none)
  | .cons k v rest =>
    match v with
    | .map m =>
      let r := fixO root m
      match r.2 with
      | some e => (.cons k (.map r.1) rest, some e)
      | none =>
        let r2 := fixO root rest
        (.cons k (.map r.1) r2.1, r2.2)
    | _ =>
      if k ∈ pathKeys then
        let r := fixLeaf root v
        match r.2 with
        | some e => (.cons k r.1 rest, some e)
        | none =>
          let r2 := fixO root rest
          (.cons k r.1 r2.1, r2.2)
      else
        let r2 := fixO root rest
        (.cons k v r2.1, r2.2)

/-- The recursive body of `rel_paths` (root already resolved). -/
def relO (cwd : String) (root : Value) : Obj → Obj × Option Err
  | .nil => (.nil, none)
  | .cons k v rest =>
    match v with
    | .map m =>
      let r := relO cwd root m
      match r.2 with
      | some e => (.cons k (.map r.1) rest, some e)
      | none =>
        let r2 := relO cwd root rest
        (.cons k (.map r.1) r2.1, r2.2)
    | _ =>
      if k ∈ pathKeys then
        let r := relLeaf cwd root v
        match r.2 with
        | some e => (.cons k r.1 rest, some e)
        | none =>
          let r2 := relO cwd root rest
          (.cons k r.1 r2.1, r2.2)
      else
        let r2 := relO cwd root rest
        (.cons k v r2.1, r2.2)

/-- Root resolution of `fix_paths`/`rel_paths` when neither `root` nor
`project` is supplied: use `d['project']` to look the root up in the
projects registry (`self.projects[project]['root']`), else fall back to
`d['root']`. -/
def resolveRootD (projects : Reg) (d : Obj) : Except Err Value :=
  match d.find "project" with
  | some p =>
    if p = .null then
      match d.find "root" with
      | some r => .ok r
      | none => .error .keyError
    else
      match p.strContent with
      | some name =>
        (match regFind projects name with
         | some pd =>
           (match pd with
            | .map m =>
              (match m.find "root" with
               | some r => .ok r
               | none => .error .keyError)
            | _ => .error .typeError)
         | none => .error .keyError)
      | none =>
        -- a non-string hashable key is simply absent from the string-keyed
        -- registry (KeyError); an unhashable key raises TypeError
        if p.hashable then .error .keyError else .error .typeError
  | none =>
    match d.find "root" with
    | some r => .ok r
    | none => .error .keyError

/-- Root resolution when only `project` is supplied
(`root = self.projects[project]['root']`). -/
def resolveRootP (projects : Reg) (p : Value) : Except Err Value :=
  match p.strContent with
  | some name =>
    (match regFind projects name with
     | some pd =>
       (match pd with
        | .map m =>
          (match m.find "root" with
           | some r => .ok r
           | none => .error .keyError)
        | _ => .error .typeError)
     | none => .error .keyError)
  | none => if p.hashable then .error .keyError else .error .typeError

/-- `ExperimentsConfig.fix_paths(d, root, project)`: resolve the root if
needed, then rewrite `d` in place.  A resolution failure raises before any
entry is touched. -/
def fix_paths (projects : Reg) (d : Obj) (root proj : Option Value) :
    Obj × Option Err :=
  match root with
  | some r => fixO r d
  | none =>
    match proj with
    | none =>
      (match resolveRootD projects d with
       | .ok r => fixO r d
       | .error e => (d, some e))
    | some p =>
      (match resolveRootP projects p with
       | .ok r => fixO r d
       | .error e => (d, some e))

/-- `ExperimentsConfig.rel_paths(d, root, project)`. -/
def rel_paths (projects : Reg) (cwd : String) (d : Obj) (root proj : Option Value) :
    Obj × Option Err :=
  match root with
  | some r => relO cwd r d
  | none =>
    match proj with
    | none =>
      (match resolveRootD projects d with
       | .ok r => relO cwd r d
       | .error e => (d, some e))
    | some p =>
      (match resolveRootP projects p with
       | .ok r => relO cwd r d
       | .error e => (d, some e))

/- sanity: the spec's section-8 example, `{project: "P", outdir: "out"}`
with root `/proj` -/
example :
    fix_paths [("P", .map (.cons "root" (.str "/proj") .nil))]
      (.cons "project" (.str "P") (.cons "outdir" (.str "out") .nil)) none none
    = (.cons "project" (.str "P") (.cons "outdir" (.str "/proj/out") .nil), none) := rfl

example :
    rel_paths [("P", .map (.cons "root" (.str "/proj") .nil))] "/"
      (.cons "project" (.str "P") (.cons "outdir" (.str "/proj/out") .nil)) none none
    = (.cons "project" (.str "P") (.cons "outdir" (.str "out") .nil), none) := by decide

example :
    fix_paths [] (.cons "outdir" (.seq .nil) .nil) (some (.str "/proj")) none
    = (.cons "outdir" (.seq .nil) .nil, some .indexError) := rfl

/- ### Filesystem model and Locked File I/O -/

/-- The filesystem as observed by the code: YAML file contents, directory
listings (directory entry names), and whether opening a path for writing
succeeds (failure injection for the error-handling claims). -/
structure Fs where
  files : String → Option Value
  dirs : String → Option (List String)
  writeOk : String → Bool

/-- `os.path.exists` on a file path, given files additionally created by
earlier writes of the same operation (`extra`). -/
def Fs.existsF (fs : Fs) (extra : List String) (p : String) : Bool :=
  (fs.files p).isSome || extra.contains p

/-- `os.path.exists` on a directory path. -/
def Fs.existsD (fs : Fs) (p : String) : Bool :=
  (fs.dirs p).isSome

/-- `safe_load(fname)`, value level: load the YAML file, or raise the I/O
error of a missing file. -/
def safe_load (fs : Fs) (fname : String) : Except Err Value :=
  match fs.files fname with
  | some v => .ok v
  | none => .error .ioError

/-- Lock and filesystem events, for the temporal claims. -/
inductive Ev where
  | acq (lck : String)
  | rls (lck : String)
  | ren (src dst : String)
  | wr (p : String)
  | rd (p : String)
  | mkd (p : String)
deriving DecidableEq, Repr

/-- `safe_load(fname)` with its event trace: acquire `fname + ".lck"`, read
inside `try`, release in `finally` (also when `open` raises). -/
def safe_load_trace (fs : Fs) (fname : String) : List Ev × Except Err Value :=
  let l := fname ++ ".lck"
  match fs.files fname with
  | some v => ([.acq l, .rd fname, .rls l], .ok v)
  | none => ([.acq l, .rls l], .error .ioError)

/-- `safe_dump(d, fname)` with its event trace.  The source renames a
pre-existing `fname` to `fname + "~"` *before* creating the lock, then
acquires the lock, writes inside `try`, and releases in `finally`. -/
def safe_dump_trace (fs : Fs) (extra : List String) (_d : Value) (fname : String) :
    List Ev × Except Err Unit :=
  let l := fname ++ ".lck"
  let pre := if fs.existsF extra fname then [Ev.ren fname (fname ++ "~")] else []
  if fs.writeOk fname then
    (pre ++ [.acq l, .wr fname, .rls l], .ok ())
  else
    (pre ++ [.acq l, .rls l], .error .ioError)

/-- Number of acquisitions of lock `l` in a trace. -/
def countAcq (l : String) (tr : List Ev) : Nat :=
  tr.countP fun e => decide (e = .acq l)

/-- Number of releases of lock `l` in a trace. -/
def countRls (l : String) (tr : List Ev) : Nat :=
  tr.countP fun e => decide (e = .rls l)

/-- Does an event touch the file at `p` (rename source or target, write, or
read)? -/
def touches (p : String) : Ev → Bool
  | .ren s d => s = p || d = p
  | .wr q => q = p
  | .rd q => q = p
  | _ => false

/-- `lockedOps p held tr`: every event of `tr` touching `p` happens while
the lock `p + ".lck"` is held (`held` counts currently held acquisitions). -/
def lockedOps (p : String) : Nat → List Ev → Bool
  | _, [] => true
  | held, e :: rest =>
    let held' :=
      match e with
      | .acq l => if l = p ++ ".lck" then held + 1 else held
      | .rls l => if l = p ++ ".lck" then held - 1 else held
      | _ => held
    (!touches p e || decide (0 < held)) && lockedOps p held' rest

/- ### Experiments Registry -/

/-- The project→experiments index `_project_map`: a `defaultdict(list)`
keyed by whatever `val['project']` / `Archive.project` holds. -/
abbrev PMap := List (Value × List String)

/-- `_project_map[p]` (a `defaultdict`: absent keys read as `[]`). -/
def pmGet (pm : PMap) (p : Value) : List String :=
  match pm with
  | [] => []
  | (p', l) :: rest => if p' = p then l else pmGet rest p

/-- `_project_map[p].append(e)` (creating the entry if absent). -/
def pmApp (pm : PMap) (p : Value) (e : String) : PMap :=
  match pm with
  | [] => [(p, [e])]
  | (p', l) :: rest =>
    if p' = p then (p', l ++ [e]) :: rest else (p', l) :: pmApp rest p e

/-- The `project_map` property: fold every currently realized (`dict`) or
archived value of the registry into `_project_map` — `dict` values under
their `val['project']` (KeyError if absent, TypeError if unhashable),
`Archive` values under their `project` attribute. -/
def project_map_upd (pm : PMap) : Reg → Except Err PMap
  | [] => .ok pm
  | (k, v) :: rest =>
    match v with
    | .map m =>
      (match m.find "project" with
       | none => .error .keyError
       | some p =>
         if p.hashable then
           project_map_upd (if k ∈ pmGet pm p then pm else pmApp pm p k) rest
         else .error .typeError)
    | .arch _ pr =>
      if pr.hashable then
        project_map_upd (if k ∈ pmGet pm pr then pm else pmApp pm pr k) rest
      else .error .typeError
    | _ => project_map_upd pm rest

/-- `ExperimentsConfig.__setitem__`: assigning an `Archive` first forces the
`project_map` recomputation on the *current* registry, then stores. -/
def exps_setitem (pm : PMap) (st : Reg) (key : String) (val : Value) :
    Except Err (PMap × Reg) :=
  if val.isArch then
    match project_map_upd pm st with
    | .ok pm' => .ok (pm', regSet st key val)
    | .error e => .error e
  else .ok (pm, regSet st key val)

/-- Basename check `f.startswith "."` on a directory entry. -/
def hiddenName (f : String) : Bool :=
  match f.data with
  | '.' :: _ => true
  | _ => false

/-- Does a directory entry name end in `".yml"`? -/
def ymlName (f : String) : Bool :=
  decide (4 ≤ f.data.length) &&
  decide (f.data.drop (f.data.length - 4) = '.' :: 'y' :: 'm' :: 'l' :: [])

/-- `glob.glob(osp.join(config_path, '*.yml'))` restricted to the entry
names: the entries ending in `".yml"`; `*` does not match a leading dot, so
hidden files (in particular `.project.yml`) are never globbed. -/
def globYml (listing : List String) : List String :=
  listing.filter fun f => ymlName f && !hiddenName f

/-- `osp.splitext(osp.basename(fname))[0]` for a globbed entry name
(which ends in `".yml"`). -/
def stripYml (f : String) : String :=
  String.mk (f.data.take (f.data.length - 4))

/-- The entries loaded from the master index `experiments.yml` (empty when
the file does not exist); iterating a non-mapping raises. -/
def master_entries (fs : Fs) (conf_dir : String) : Except Err Reg :=
  let exp_file := joinp conf_dir "experiments.yml"
  if fs.existsF [] exp_file then
    match safe_load fs exp_file with
    | .ok (.map m) => .ok m.pairs
    | .ok _ => .error .typeError
    | .error e => .error e
  else .ok []

/-- Insert the master-index entries into `ret` in order (`ret[key] = val`). -/
def insertAll (ret : Reg) : List (String × Value) → Reg
  | [] => ret
  | (k, v) :: rest => insertAll (regSet ret k v) rest

/-- One scanned file's registry update: record a pending reference to
`<config_path>/<exp>.yml` unless the name is already stored as an
`Archive`. -/
def scanRet (config_path : String) (ret : Reg) (exp : String) : Reg :=
  match regFind ret exp with
  | some v =>
    if v.isArch then ret else regSet ret exp (.str (joinp config_path (exp ++ ".yml")))
  | none => regSet ret exp (.str (joinp config_path (exp ++ ".yml")))

/-- One scanned file's index update: append the name to the
project→experiments index if missing. -/
def scanPm (project : String) (pm : PMap) (exp : String) : PMap :=
  if exp ∈ pmGet pm (.str project) then pm else pmApp pm (.str project) exp

/-- The scan of one project's metadata directory over the globbed entry
names.  The dead `fname == '.project.yml'` comparison of the source
compares the full path against the bare name; it is modelled as written. -/
def scanProject (config_path : String) (project : String) :
    Reg × PMap → List String → Reg × PMap
  | (ret, pm), [] => (ret, pm)
  | (ret, pm), f :: fsRest =>
    if joinp config_path f = ".project.yml" then
      scanProject config_path project (ret, pm) fsRest
    else
      scanProject config_path project
        (scanRet config_path ret (stripYml f), scanPm project pm (stripYml f)) fsRest

/-- The per-project loop of `exp_files`: `project_path = d['root']`,
`config_path = osp.join(project_path, '.project')`; skip projects whose
metadata directory does not exist, else scan its globbed `*.yml` entries. -/
def expFilesLoop (fs : Fs) : Reg × PMap → List (String × Value) → Except Err (Reg × PMap)
  | acc, [] => .ok acc
  | acc, (project, d) :: rest =>
    match d with
    | .map m =>
      (match m.find "root" with
       | none => .error .keyError
       | some rootv =>
         match rootv.strContent with
         | none => .error .typeError
         | some root =>
           let config_path := joinp root ".project"
           if fs.existsD config_path then
             match fs.dirs config_path with
             | some listing =>
               expFilesLoop fs
                 (scanProject config_path project acc (globYml listing)) rest
             | none => expFilesLoop fs acc rest
           else expFilesLoop fs acc rest)
    | _ => .error .typeError

/-- `ExperimentsConfig.exp_files`: restore the order from the master index,
then scan every project's metadata directory. -/
def exp_files (fs : Fs) (projects : Reg) (conf_dir : String) (pm : PMap) :
    Except Err (Reg × PMap) :=
  match master_entries fs conf_dir with
  | .error e => .error e
  | .ok ms => expFilesLoop fs (insertAll [] ms, pm) projects

/-- The `self[key] = val` loop of `__init__` when explicit documents are
supplied. -/
def setAllItems (pm : PMap) (st : Reg) : List (String × Value) → Except Err (PMap × Reg)
  | [] => .ok (pm, st)
  | (k, v) :: rest =>
    match exps_setitem pm st k v with
    | .ok (pm', st') => setAllItems pm' st' rest
    | .error e => .error e

/-- `ExperimentsConfig.__init__(projects, d, project_map)`: an empty (falsy)
projects registry skips population entirely; otherwise explicit documents
are stored one by one, or the registry is populated from `exp_files`. -/
def exps_init (fs : Fs) (projects : Reg) (conf_dir : String)
    (d : Option (List (String × Value))) (pm : PMap) : Except Err (Reg × PMap) :=
  if projects = [] then .ok ([], pm)
  else
    match d with
    | some items =>
      (match setAllItems pm [] items with
       | .ok (pm', st) => .ok (st, pm')
       | .error e => .error e)
    | none => exp_files fs projects conf_dir pm

/-- `ExperimentsConfig.__getitem__`: a realized `dict` or `Archive` is
returned as is; otherwise the stored value is taken as a file name, loaded
via `safe_load`, cached into the registry (through `__setitem__`), and, if a
mapping, normalized in place by `fix_paths` — whose failure happens *after*
the cache assignment. -/
def getitem (fs : Fs) (projects : Reg) (pm : PMap) (st : Reg) (name : String) :
    Except Err Value × (PMap × Reg) :=
  match regFind st name with
  | none => (.error .keyError, (pm, st))
  | some v =>
    if v.isMap || v.isArch then (.ok v, (pm, st))
    else
      match v with
      | .str fname =>
        (match safe_load fs fname with
         | .error e => (.error e, (pm, st))
         | .ok d =>
           match exps_setitem pm st name d with
           | .error e => (.error e, (pm, st))
           | .ok (pm₁, st₁) =>
             match d with
             | .map m =>
               let r := fix_paths projects m none none
               let st₂ := regSet st₁ name (.map r.1)
               (match r.2 with
                | some e => (.error e, (pm₁, st₂))
                | none => (.ok (.map r.1), (pm₁, st₂)))
             | _ => (.ok d, (pm₁, st₁)))
      | _ => (.error .typeError, (pm, st))

/-- The master-index document written by `ExperimentsConfig.save`:
every name maps to its `Archive` marker if archived, else to `null`. -/
def masterIndex (st : Reg) : Reg :=
  st.map fun p => (p.1, if p.2.isArch then p.2 else .null)

/-- Turn a registry into the `Value` that gets dumped. -/
def regToObj : Reg → Obj
  | [] => .nil
  | (k, v) :: rest => .cons k v (regToObj rest)

/-- The per-experiment loop of `ExperimentsConfig.save`: every realized
`dict` experiment is denormalized in place (`rel_paths`) and dumped to
`<project_root>/.project/<name>.yml` (creating the directory if missing).
Returns the trace, the written-file accumulator, and the updated registry
(the in-place `rel_paths` mutation is visible to the later master dump) —
or the first raised error. -/
def expsSaveLoop (fs : Fs) (projects : Reg) (cwd : String) :
    List Ev × List String × Reg → List (String × Value) →
    (List Ev × List String × Reg) × Option Err
  | (tr, extra, st), [] => ((tr, extra, st), none)
  | (tr, extra, st), (exp, d) :: rest =>
    match d with
    | .map m =>
      (match m.find "project" with
       | none => ((tr, extra, st), some .keyError)
       | some p =>
         match resolveRootP projects p with
         | .error e => ((tr, extra, st), some e)
         | .ok rootv =>
           match rootv.strContent with
           | none => ((tr, extra, st), some .typeError)
           | some project_path =>
             let r := rel_paths projects cwd m none none
             let st' := regSet st exp (.map r.1)
             match r.2 with
             | some e => ((tr, extra, st'), some e)
             | none =>
               let dirname := joinp project_path ".project"
               let fname := joinp dirname (exp ++ ".yml")
               let tr₁ := tr ++ (if fs.existsD dirname then [] else [Ev.mkd dirname])
               let dump := safe_dump_trace fs extra (.map r.1) fname
               match dump.2 with
               | .ok _ => expsSaveLoop fs projects cwd (tr₁ ++ dump.1, fname :: extra, st') rest
               | .error e => ((tr₁ ++ dump.1, extra, st'), some e))
    | _ => expsSaveLoop fs projects cwd (tr, extra, st) rest

/-- `ExperimentsConfig.save` with its event trace: dump every realized
experiment, then take the master-index lock, dump the master index, and
release the lock — the release is *not* in a `finally`, so a failing dump
leaves it acquired.  On success the written master index is returned. -/
def exps_save_trace (fs : Fs) (projects : Reg) (cwd : String) (st : Reg)
    (conf_dir : String) : List Ev × Except Err Reg :=
  match expsSaveLoop fs projects cwd ([], [], st) st with
  | ((tr, _, _), some e) => (tr, .error e)
  | ((tr, extra, st'), none) =>
    let exp_file := joinp conf_dir "experiments.yml"
    let l := exp_file ++ ".lck"
    let idx := masterIndex st'
    let dump := safe_dump_trace fs extra (.map (regToObj idx)) exp_file
    match dump.2 with
    | .ok _ => (tr ++ [.acq l] ++ dump.1 ++ [.rls l], .ok idx)
    | .error e => (tr ++ [.acq l] ++ dump.1, .error e)

/- ### Projects Registry -/

/-- `ProjectsConfig.__init__(conf_dir)` with no explicit documents: read the
name→root index from `projects.yml` if it exists (else start empty), then
eagerly load every project's `.project/.project.yml`.  Returns the registry
and the `project_paths` index. -/
def projects_init (fs : Fs) (conf_dir : String) : Except Err (Reg × Reg) :=
  let fname := joinp conf_dir "projects.yml"
  if fs.existsF [] fname then
    match safe_load fs fname with
    | .error e => .error e
    | .ok (.map m) =>
      (match projectsLoadLoop fs [] m.pairs with
       | .ok st => .ok (st, m.pairs)
       | .error e => .error e)
    | .ok _ => .error .typeError
  else .ok ([], [])
where
  projectsLoadLoop (fs : Fs) (st : Reg) : List (String × Value) → Except Err Reg
    | [] => .ok st
    | (project, path) :: rest =>
      match path.strContent with
      | none => .error .typeError
      | some p =>
        match safe_load fs (joinp (joinp p ".project") ".project.yml") with
        | .ok v => projectsLoadLoop fs (regSet st project v) rest
        | .error e => .error e

/-- `ProjectsConfig.save`: realized (`dict`) projects are dumped to
`<root>/.project/.project.yml` (with backup rename) and recorded in a fresh
index; for any other value the source executes
`project_paths = self.project_paths[project]` — *assigning the whole index*
to the old root-path value of that one project.  Assigning into the index
afterwards (`project_paths[project] = project_path`) then requires it to
still be a mapping.  Returns the final `project_paths` value written to
`projects.yml`. -/
def projects_save (fs : Fs) (st : Reg) (old_paths : Reg) (conf_dir : String) :
    Except Err Value :=
  match projectsSaveLoop fs st old_paths (.map .nil) with
  | .error e => .error e
  | .ok idx =>
    if fs.writeOk (joinp conf_dir "projects.yml") then .ok idx
    else .error .ioError
where
  projectsSaveLoop (fs : Fs) : Reg → Reg → Value → Except Err Value
    | [], _, acc => .ok acc
    | (project, d) :: rest, old_paths, acc =>
      match d with
      | .map m =>
        (match m.find "root" with
         | none => .error .keyError
         | some rootv =>
           match rootv.strContent with
           | none => .error .typeError
           | some root =>
             let fname := joinp (joinp root ".project") ".project.yml"
             if fs.writeOk fname then
               match acc with
               | .map o => projectsSaveLoop fs rest old_paths (.map (o.set project rootv))
               | _ => .error .typeError
             else .error .ioError)
      | _ =>
        (match regFind old_paths project with
         | some oldRoot => projectsSaveLoop fs rest old_paths oldRoot
         | none => .error .keyError)

/- ### Concrete filesystem fixtures -/

/-- An empty filesystem on which every write succeeds. -/
def fsNone : Fs := ⟨fun _ => none, fun _ => none, fun _ => true⟩

/-- A filesystem holding one file `"f"` (so `safe_dump` performs the backup
rename). -/
def fsBak : Fs :=
  ⟨fun p => if p = "f" then some .null else none, fun _ => none, fun _ => true⟩

/-- A filesystem on which writing `/cfg/experiments.yml` fails. -/
def fsNoWrite : Fs :=
  ⟨fun _ => none, fun _ => none, fun p => !(p = "/cfg/experiments.yml")⟩

/-- A filesystem holding one file `"f.yml"` whose content is the empty
document. -/
def fsEmptyDoc : Fs :=
  ⟨fun p => if p = "f.yml" then some (.map .nil) else none,
   fun _ => none, fun _ => true⟩

/-- `lockedOps` restricted to write/read events only: every write or read
of `p` happens under the lock `p + ".lck"`. -/
def lockedWR (p : String) : Nat → List Ev → Bool
  | _, [] => true
  | held, e :: rest =>
    let held' :=
      match e with
      | .acq l => if l = p ++ ".lck" then held + 1 else held
      | .rls l => if l = p ++ ".lck" then held - 1 else held
      | _ => held
    let isWR :=
      match e with
      | .wr q => decide (q = p)
      | .rd q => decide (q = p)
      | _ => false
    (!isWR || decide (0 < held)) && lockedWR p held' rest

/- ### Claim theorems -/

/-- C1: the claim says that after `ProjectsConfig.save()` the on-disk index
`projects.yml` maps every known project name to its root, keeping the
previously known root for unrealized entries.  The code instead executes
`project_paths = self.project_paths[project]` for a non-`dict` entry,
replacing the *whole* index by that project's old root-path value: with a
single unrealized project `b` (old root `/b`) the written index is the bare
string `/b` rather than a mapping containing `b`; and an unrealized entry
followed by a realized one raises `TypeError` when the code tries to assign
into the string. -/
theorem c1_projects_save_clobbers_index :
    projects_save fsNone [("b", .str "b.yml")] [("b", .str "/b")] "/cfg"
      = .ok (.str "/b")
    ∧ projects_save fsNone
        [("b", .str "b.yml"), ("a", .map (.cons "root" (.str "/a") .nil))]
        [("b", .str "/b")] "/cfg"
      = .error .typeError := by
  exact ⟨rfl, rfl⟩

/-- C2 (counterexample): the claim says the lock keyed by `path + ".lck"` is
held during *every* filesystem operation touching `path`, including the
backup rename.  On a filesystem where `"f"` exists, the trace of
`safe_dump(d, "f")` performs the rename before the lock is acquired, so the
locked-operations predicate fails. -/
theorem c2_counterexample :
    lockedOps "f" 0 (safe_dump_trace fsBak [] .null "f").1 = false := by decide

/-- C2 (amended): in every `safe_dump(d, path)` trace the write of the new
serialized document happens while the lock `path + ".lck"` is held, but the
backup rename of a pre-existing file at `path` is the first event of the
trace and happens *before* the lock is acquired (so the full claim's
locked-operations predicate fails whenever a backup is made). -/
theorem c2_write_locked_rename_before_lock (fs : Fs) (extra : List String)
    (d : Value) (fname : String) :
    lockedWR fname 0 (safe_dump_trace fs extra d fname).1 = true
    ∧ (fs.existsF extra fname = true →
        (safe_dump_trace fs extra d fname).1.head?
          = some (.ren fname (fname ++ "~"))
        ∧ lockedOps fname 0 (safe_dump_trace fs extra d fname).1 = false) := by
  constructor
  · by_cases h : fs.existsF extra fname <;>
      by_cases h2 : fs.writeOk fname <;>
        simp [safe_dump_trace, h, h2, lockedWR]
  · intro h
    by_cases h2 : fs.writeOk fname <;>
      simp [safe_dump_trace, h, h2, lockedOps, touches]

/-- C2 (witness). -/
theorem c2_witness :
    lockedWR "f" 0 (safe_dump_trace fsBak [] .null "f").1 = true
    ∧ (safe_dump_trace fsBak [] .null "f").1.head?
        = some (.ren "f" ("f" ++ "~")) := by
  refine ⟨(c2_write_locked_rename_before_lock fsBak [] .null "f").1, ?_⟩
  exact (((c2_write_locked_rename_before_lock fsBak [] .null "f").2) rfl).1

/-- C3 (counterexample): the claim says every lock acquired by `safe_load`,
`safe_dump` or a registry save — including the master-index lock taken
inside `ExperimentsConfig.save` — is released on every exit path.  When the
dump of `experiments.yml` fails, `ExperimentsConfig.save` raises while the
extra master-index lock it acquired (without `try/finally`) is still held:
the trace acquires that lock twice but releases it once. -/
theorem c3_counterexample :
    countAcq "/cfg/experiments.yml.lck" (exps_save_trace fsNoWrite [] "/" [] "/cfg").1
      ≠ countRls "/cfg/experiments.yml.lck" (exps_save_trace fsNoWrite [] "/" [] "/cfg").1 := by
  decide

/-- C4 (counterexample): the claim says a failed lazy read always leaves the
stored value as the original reference string.  With `e ↦ "f.yml"` and
`f.yml` holding the empty document, `__getitem__` raises `KeyError` (from
`fix_paths`, which finds neither `project` nor `root`), yet the registry now
caches the realized empty document instead of the reference string. -/
theorem c4_counterexample :
    (getitem fsEmptyDoc [] [] [("e", .str "f.yml")] "e").1 = .error .keyError
    ∧ regFind (getitem fsEmptyDoc [] [] [("e", .str "f.yml")] "e").2.2 "e"
        = some (.map .nil) := by
  exact ⟨rfl, rfl⟩

/-- C4 (amended): if the load itself (`safe_load`) raises, the registry
entry keeps its unrealized reference string, so a retry re-attempts the
load; but if the load succeeds and the subsequent in-place path
normalization raises, the loaded (possibly partially normalized) document is
already cached in place of the reference. -/
theorem c4_failed_load_keeps_reference (fs : Fs) (projects : Reg) (pm : PMap)
    (st : Reg) (name fname : String)
    (href : regFind st name = some (.str fname)) :
    (fs.files fname = none →
      getitem fs projects pm st name = (.error .ioError, (pm, st)))
    ∧ (∀ m pm₁ st₁ e, fs.files fname = some (.map m) →
        exps_setitem pm st name (.map m) = .ok (pm₁, st₁) →
        (fix_paths projects m none none).2 = some e →
        getitem fs projects pm st name
          = (.error e, (pm₁, regSet st₁ name (.map (fix_paths projects m none none).1)))) := by
  constructor
  · intro h
    simp [getitem, href, Value.isMap, Value.isArch, safe_load, h]
  · intro m pm₁ st₁ e hfile hset hfix
    simp [getitem, href, Value.isMap, Value.isArch, safe_load, hfile, hset, hfix]

/-- C4 (witness). -/
theorem c4_witness :
    getitem fsNone [] [] [("e", .str "f.yml")] "e"
      = (.error .ioError, ([], [("e", .str "f.yml")])) :=
  (c4_failed_load_keeps_reference fsNone [] [] [("e", .str "f.yml")] "e" "f.yml" rfl).1 rfl

/-- C6 (counterexample): the claim asserts, for *every* document and root,
that `rel_paths` inverts `fix_paths` and that `fix_paths` is idempotent.
Both parts fail: an absolute value (`/abs`) under a path key is kept by
`fix_paths` but re-based by `rel_paths` (giving `../abs`), and with a
relative root `a` a relative value `x` is joined again by a second pass
(giving `a/a/x`). -/
theorem c6_counterexample :
    (rel_paths [] "/"
        (fix_paths [] (.cons "outdir" (.str "/abs") .nil) (some (.str "/proj")) none).1
        (some (.str "/proj")) none).1
      ≠ .cons "outdir" (.str "/abs") .nil
    ∧ (fix_paths []
          (fix_paths [] (.cons "outdir" (.str "x") .nil) (some (.str "a")) none).1
          (some (.str "a")) none).1
        ≠ (fix_paths [] (.cons "outdir" (.str "x") .nil) (some (.str "a")) none).1 := by
  decide

/-- C7: the claim (and the spec's edge case) says an empty sequence under a
path-like key is left unchanged and neither `fix_paths` nor `rel_paths`
raises.  The code evaluates `utils.safe_list(val)[0]` on the empty sequence,
which raises `IndexError` in both functions. -/
theorem c7_empty_sequence_raises :
    fix_paths [] (.cons "outdir" (.seq .nil) .nil) (some (.str "/proj")) none
      = (.cons "outdir" (.seq .nil) .nil, some .indexError)
    ∧ rel_paths [] "/" (.cons "outdir" (.seq .nil) .nil) (some (.str "/proj")) none
      = (.cons "outdir" (.seq .nil) .nil, some .indexError) := by
  exact ⟨rfl, rfl⟩

/-- C9: a missing `projects.yml` bootstraps `ProjectsConfig` to an empty
registry (with an empty index) without raising, and over that empty projects
registry a missing `experiments.yml` bootstraps `ExperimentsConfig` to an
empty registry without raising (the falsy empty projects mapping skips
population entirely). -/
theorem c9_bootstrap_empty (fs : Fs) (conf_dir : String) (pm : PMap)
    (h1 : fs.files (joinp conf_dir "projects.yml") = none)
    (_h2 : fs.files (joinp conf_dir "experiments.yml") = none) :
    projects_init fs conf_dir = .ok ([], [])
    ∧ exps_init fs [] conf_dir none pm = .ok ([], pm) := by
  constructor
  · simp [projects_init, Fs.existsF, h1]
  · simp [exps_init]

/-- C9 (witness). -/
theorem c9_witness :
    projects_init fsNone "/cfg" = .ok ([], [])
    ∧ exps_init fsNone [] "/cfg" none [] = .ok ([], []) :=
  c9_bootstrap_empty fsNone "/cfg" [] rfl rfl

/- ### C10: frame property of the path rewriters -/

/-- Elementwise relation on sequences under a path-like key: every element
is either unchanged or rewritten from one Python string to another — so
non-string elements (in particular nested mappings) are never rewritten. -/
def seqRel : VList → VList → Bool
  | .nil, .nil => true
  | .cons a as, .cons b bs =>
    (decide (a = b) || (a.strContent.isSome && b.strContent.isSome)) && seqRel as bs
  | _, _ => false

/-- Allowed change of a non-mapping value under a path-like key: unchanged,
a string rewritten to a string, or a sequence related elementwise. -/
def pathRel : Value → Value → Bool
  | .seq l, .seq l' => seqRel l l'
  | a, b => decide (a = b) || (a.strContent.isSome && b.strContent.isSome)

mutual
/-- Frame relation on a single entry's value under key `k`: mappings are
recursed into (under any key, as the source does), values under a path-like
key may change per `pathRel`, and every other value is unchanged. -/
def frameV (k : String) : Value → Value → Bool
  | .map m, .map m' => frameO m m'
  | .map _, _ => false
  | v, v' => if k ∈ pathKeys then pathRel v v' else decide (v = v')

/-- Frame relation on documents: same keys in the same order, values related
entrywise by `frameV`. -/
def frameO : Obj → Obj → Bool
  | .nil, .nil => true
  | .cons k v r, .cons k' v' r' => decide (k = k') && frameV k v v' && frameO r r'
  | _, _ => false
end

def seqRel_refl : (l : VList) → seqRel l l = true
  | .nil => rfl
  | .cons a as => by simp [seqRel, seqRel_refl as]

def pathRel_refl (v : Value) : pathRel v v = true := by
  cases v <;> simp [pathRel, seqRel_refl]

mutual
def frameV_refl (k : String) : (v : Value) → frameV k v v = true
  | .null => by simp [frameV, pathRel]
  | .str s => by simp [frameV, pathRel]
  | .int n => by simp [frameV, pathRel]
  | .bool b => by simp [frameV, pathRel]
  | .seq l => by simp [frameV, pathRel, seqRel_refl l]
  | .map m => by simpa [frameV] using frameO_refl m
  | .arch s p => by simp [frameV, pathRel]
def frameO_refl : (d : Obj) → frameO d d = true
  | .nil => rfl
  | .cons k v r => by simp [frameO, frameV_refl k v, frameO_refl r]
end

def vjoin_seqRel (root : Value) : (l : VList) → seqRel l (vjoin root l).1 = true
  | .nil => rfl
  | .cons v t => by
    cases v with
    | str s =>
      cases hj : jnRoot root s with
      | ok j => simp [vjoin, hj, seqRel, Value.strContent, vjoin_seqRel root t]
      | error e => simp [vjoin, hj, Value.strContent, seqRel_refl]
    | arch s p =>
      cases hj : jnRoot root s with
      | ok j => simp [vjoin, hj, seqRel, Value.strContent, vjoin_seqRel root t]
      | error e => simp [vjoin, hj, Value.strContent, seqRel_refl]
    | null => simp [vjoin, Value.strContent, seqRel_refl]
    | int n => simp [vjoin, Value.strContent, seqRel_refl]
    | bool b => simp [vjoin, Value.strContent, seqRel_refl]
    | seq l => simp [vjoin, Value.strContent, seqRel_refl]
    | map m => simp [vjoin, Value.strContent, seqRel_refl]

def vrel_seqRel (cwd : String) (root : Value) :
    (l : VList) → seqRel l (vrel cwd root l).1 = true
  | .nil => rfl
  | .cons v t => by
    cases v with
    | str s =>
      cases hj : rpRoot cwd s root with
      | ok j => simp [vrel, hj, seqRel, Value.strContent, vrel_seqRel cwd root t]
      | error e => simp [vrel, hj, Value.strContent, seqRel_refl]
    | arch s p =>
      cases hj : rpRoot cwd s root with
      | ok j => simp [vrel, hj, seqRel, Value.strContent, vrel_seqRel cwd root t]
      | error e => simp [vrel, hj, Value.strContent, seqRel_refl]
    | null => simp [vrel, Value.strContent, seqRel_refl]
    | int n => simp [vrel, Value.strContent, seqRel_refl]
    | bool b => simp [vrel, Value.strContent, seqRel_refl]
    | seq l => simp [vrel, Value.strContent, seqRel_refl]
    | map m => simp [vrel, Value.strContent, seqRel_refl]

theorem fixLeaf_pathRel (root : Value) (v : Value) :
    pathRel v (fixLeaf root v).1 = true := by
  cases v with
  | str s =>
    by_cases ha : isabs s
    · simp [fixLeaf, ha, pathRel_refl]
    · cases hj : jnRoot root s with
      | ok j => simp [fixLeaf, ha, hj, pathRel, Value.strContent]
      | error e => simp [fixLeaf, ha, hj, pathRel_refl]
  | arch s p =>
    by_cases ha : isabs s
    · simp [fixLeaf, ha, pathRel_refl]
    · cases hj : jnRoot root s with
      | ok j => simp [fixLeaf, ha, hj, pathRel, Value.strContent]
      | error e => simp [fixLeaf, ha, hj, pathRel_refl]
  | seq l =>
    cases l with
    | nil => simp [fixLeaf, pathRel, seqRel_refl]
    | cons h t =>
      cases hh : h.strContent with
      | none => simp [fixLeaf, hh, pathRel, seqRel_refl]
      | some s0 =>
        by_cases ha : isabs s0
        · simp [fixLeaf, hh, ha, pathRel, seqRel_refl]
        · simp [fixLeaf, hh, ha, pathRel, vjoin_seqRel]
  | null => simp [fixLeaf, pathRel_refl]
  | int n => simp [fixLeaf, pathRel_refl]
  | bool b => simp [fixLeaf, pathRel_refl]
  | map m => simp [fixLeaf, pathRel_refl]

theorem relLeaf_pathRel (cwd : String) (root : Value) (v : Value) :
    pathRel v (relLeaf cwd root v).1 = true := by
  cases v with
  | str s =>
    by_cases ha : isabs s
    · cases hj : rpRoot cwd s root with
      | ok j => simp [relLeaf, ha, hj, pathRel, Value.strContent]
      | error e => simp [relLeaf, ha, hj, pathRel_refl]
    · simp [relLeaf, ha, pathRel_refl]
  | arch s p =>
    by_cases ha : isabs s
    · cases hj : rpRoot cwd s root with
      | ok j => simp [relLeaf, ha, hj, pathRel, Value.strContent]
      | error e => simp [relLeaf, ha, hj, pathRel_refl]
    · simp [relLeaf, ha, pathRel_refl]
  | seq l =>
    cases l with
    | nil => simp [relLeaf, pathRel, seqRel_refl]
    | cons h t =>
      cases hh : h.strContent with
      | none => simp [relLeaf, hh, pathRel, seqRel_refl]
      | some s0 =>
        by_cases ha : isabs s0
        · simp [relLeaf, hh, ha, pathRel, vrel_seqRel]
        · simp [relLeaf, hh, ha, pathRel, seqRel_refl]
  | null => simp [relLeaf, pathRel_refl]
  | int n => simp [relLeaf, pathRel_refl]
  | bool b => simp [relLeaf, pathRel_refl]
  | map m => simp [relLeaf, pathRel_refl]

theorem frame_fix_step (root : Value) (k : String) (v : Value) (rest : Obj)
    (hv : v.isMap = false)
    (hr : frameO rest (fixO root rest).1 = true) :
    frameO (.cons k v rest) (fixO root (.cons k v rest)).1 = true := by
  have hl := fixLeaf_pathRel root v
  by_cases hk : k ∈ pathKeys
  · cases h2 : (fixLeaf root v).2 with
    | none => cases v <;> simp_all [fixO, frameO, frameV, hk, Value.isMap]
    | some e => cases v <;> simp_all [fixO, frameO, frameV, hk, Value.isMap, frameO_refl rest]
  · cases v <;> simp_all [fixO, frameO, frameV, hk, Value.isMap, frameV_refl]

theorem frame_rel_step (cwd : String) (root : Value) (k : String) (v : Value) (rest : Obj)
    (hv : v.isMap = false)
    (hr : frameO rest (relO cwd root rest).1 = true) :
    frameO (.cons k v rest) (relO cwd root (.cons k v rest)).1 = true := by
  have hl := relLeaf_pathRel cwd root v
  by_cases hk : k ∈ pathKeys
  · cases h2 : (relLeaf cwd root v).2 with
    | none => cases v <;> simp_all [relO, frameO, frameV, hk, Value.isMap]
    | some e => cases v <;> simp_all [relO, frameO, frameV, hk, Value.isMap, frameO_refl rest]
  · cases v <;> simp_all [relO, frameO, frameV, hk, Value.isMap, frameV_refl]

def fixO_frame (root : Value) : (d : Obj) → frameO d (fixO root d).1 = true
  | .nil => rfl
  | .cons k v rest => by
    cases v with
    | map m =>
      have hm := fixO_frame root m
      have hr := fixO_frame root rest
      cases h2 : (fixO root m).2 with
      | none => simp [fixO, h2, frameO, frameV, hm, hr]
      | some e => simp [fixO, h2, frameO, frameV, hm, frameO_refl rest]
    | null => exact frame_fix_step root k .null rest rfl (fixO_frame root rest)
    | str s => exact frame_fix_step root k (.str s) rest rfl (fixO_frame root rest)
    | int n => exact frame_fix_step root k (.int n) rest rfl (fixO_frame root rest)
    | bool b => exact frame_fix_step root k (.bool b) rest rfl (fixO_frame root rest)
    | seq l => exact frame_fix_step root k (.seq l) rest rfl (fixO_frame root rest)
    | arch s p => exact frame_fix_step root k (.arch s p) rest rfl (fixO_frame root rest)

def relO_frame (cwd : String) (root : Value) : (d : Obj) → frameO d (relO cwd root d).1 = true
  | .nil => rfl
  | .cons k v rest => by
    cases v with
    | map m =>
      have hm := relO_frame cwd root m
      have hr := relO_frame cwd root rest
      cases h2 : (relO cwd root m).2 with
      | none => simp [relO, h2, frameO, frameV, hm, hr]
      | some e => simp [relO, h2, frameO, frameV, hm, frameO_refl rest]
    | null => exact frame_rel_step cwd root k .null rest rfl (relO_frame cwd root rest)
    | str s => exact frame_rel_step cwd root k (.str s) rest rfl (relO_frame cwd root rest)
    | int n => exact frame_rel_step cwd root k (.int n) rest rfl (relO_frame cwd root rest)
    | bool b => exact frame_rel_step cwd root k (.bool b) rest rfl (relO_frame cwd root rest)
    | seq l => exact frame_rel_step cwd root k (.seq l) rest rfl (relO_frame cwd root rest)
    | arch s p => exact frame_rel_step cwd root k (.arch s p) rest rfl (relO_frame cwd root rest)

/-- C10: `fix_paths` and `rel_paths` only ever modify values stored under
the fixed path-like key set, recursing through nested mappings (under any
key); every other value is left unchanged, and non-string elements of
sequences — in particular mappings nested inside sequences — are never
visited or rewritten.  This holds for the (possibly partial) result document
on every run, successful or raising. -/
theorem c10_frame_property (projects : Reg) (cwd : String) (root proj : Option Value)
    (d : Obj) :
    frameO d (fix_paths projects d root proj).1 = true
    ∧ frameO d (rel_paths projects cwd d root proj).1 = true := by
  constructor
  · cases root with
    | some r => exact fixO_frame r d
    | none =>
      cases proj with
      | none =>
        cases h : resolveRootD projects d with
        | ok r => simpa [fix_paths, h] using fixO_frame r d
        | error e => simp [fix_paths, h, frameO_refl]
      | some p =>
        cases h : resolveRootP projects p with
        | ok r => simpa [fix_paths, h] using fixO_frame r d
        | error e => simp [fix_paths, h, frameO_refl]
  · cases root with
    | some r => exact relO_frame cwd r d
    | none =>
      cases proj with
      | none =>
        cases h : resolveRootD projects d with
        | ok r => simpa [rel_paths, h] using relO_frame cwd r d
        | error e => simp [rel_paths, h, frameO_refl]
      | some p =>
        cases h : resolveRootP projects p with
        | ok r => simpa [rel_paths, h] using relO_frame cwd r d
        | error e => simp [rel_paths, h, frameO_refl]

/- ### C3: lock balance of the I/O traces -/

theorem load_balanced (fs : Fs) (fname l : String) :
    countAcq l (safe_load_trace fs fname).1 = countRls l (safe_load_trace fs fname).1 := by
  cases h : fs.files fname <;>
    simp [safe_load_trace, h, countAcq, countRls, List.countP_cons]

theorem dump_balanced (fs : Fs) (extra : List String) (d : Value) (fname l : String) :
    countAcq l (safe_dump_trace fs extra d fname).1
      = countRls l (safe_dump_trace fs extra d fname).1 := by
  by_cases h : fs.existsF extra fname <;> by_cases h2 : fs.writeOk fname <;>
    simp [safe_dump_trace, h, h2, countAcq, countRls,
      List.countP_append, List.countP_cons]

theorem mkd_no_locks (c : Bool) (p l : String) :
    countAcq l (if c then ([] : List Ev) else [Ev.mkd p]) = 0
    ∧ countRls l (if c then ([] : List Ev) else [Ev.mkd p]) = 0 := by
  cases c <;> simp [countAcq, countRls, List.countP_cons]

theorem expsSaveLoop_delta (fs : Fs) (projects : Reg) (cwd : String) :
    ∀ (exps : List (String × Value)) (tr : List Ev) (extra : List String) (st : Reg)
      (out : List Ev × List String × Reg),
      expsSaveLoop fs projects cwd (tr, extra, st) exps = (out, none) →
      ∃ Δ, out.1 = tr ++ Δ ∧ ∀ l, countAcq l Δ = countRls l Δ := by
  intro exps
  induction exps with
  | nil =>
    intro tr extra st out h
    simp only [expsSaveLoop] at h
    obtain ⟨h1, -⟩ := Prod.mk.injEq .. ▸ h
    exact ⟨[], by simp [← h1], by simp [countAcq, countRls]⟩
  | cons hd rest ih =>
    intro tr extra st out h
    obtain ⟨exp, dv⟩ := hd
    cases dv with
    | map m =>
      simp only [expsSaveLoop] at h
      cases hp : m.find "project" with
      | none => simp [hp] at h
      | some p =>
        simp only [hp] at h
        cases hrr : resolveRootP projects p with
        | error e => simp [hrr] at h
        | ok rootv =>
          simp only [hrr] at h
          cases hsc : rootv.strContent with
          | none => simp [hsc] at h
          | some project_path =>
            simp only [hsc] at h
            cases hfx : (rel_paths projects cwd m none none).2 with
            | some e => simp [hfx] at h
            | none =>
              simp only [hfx] at h
              cases hdp : (safe_dump_trace fs extra
                  (.map (rel_paths projects cwd m none none).1)
                  (joinp (joinp project_path ".project") (exp ++ ".yml"))).2 with
              | error e => simp [hdp] at h
              | ok u =>
                simp only [hdp] at h
                obtain ⟨Δ', h1, h2⟩ := ih _ _ _ _ h
                refine ⟨((if fs.existsD (joinp project_path ".project") then [] else
                    [Ev.mkd (joinp project_path ".project")]) ++
                    (safe_dump_trace fs extra
                      (.map (rel_paths projects cwd m none none).1)
                      (joinp (joinp project_path ".project") (exp ++ ".yml"))).1) ++ Δ', ?_, ?_⟩
                · simpa [List.append_assoc] using h1
                · intro l
                  have hb := dump_balanced fs extra
                    (.map (rel_paths projects cwd m none none).1)
                    (joinp (joinp project_path ".project") (exp ++ ".yml")) l
                  have h2l := h2 l
                  simp only [countAcq, countRls, List.countP_append] at hb h2l ⊢
                  cases hD : fs.existsD (joinp project_path ".project") <;>
                    simp [hD, List.countP_cons] <;> omega
    | null => exact ih _ _ _ _ (by simpa [expsSaveLoop] using h)
    | str s => exact ih _ _ _ _ (by simpa [expsSaveLoop] using h)
    | int n => exact ih _ _ _ _ (by simpa [expsSaveLoop] using h)
    | bool b => exact ih _ _ _ _ (by simpa [expsSaveLoop] using h)
    | seq l => exact ih _ _ _ _ (by simpa [expsSaveLoop] using h)
    | arch s p => exact ih _ _ _ _ (by simpa [expsSaveLoop] using h)

/-- C3 (amended): every lock acquired by `safe_load` or `safe_dump` is
released on every exit path (the traces are acquire/release balanced for
every lock, on success and on error alike); the master-index lock taken
inside `ExperimentsConfig.save` is balanced only on *successful* return —
the counterexample shows an error during the master dump leaks it. -/
theorem c3_locks_released :
    (∀ (fs : Fs) (fname l : String),
        countAcq l (safe_load_trace fs fname).1
          = countRls l (safe_load_trace fs fname).1)
    ∧ (∀ (fs : Fs) (extra : List String) (d : Value) (fname l : String),
        countAcq l (safe_dump_trace fs extra d fname).1
          = countRls l (safe_dump_trace fs extra d fname).1)
    ∧ (∀ (fs : Fs) (projects : Reg) (cwd : String) (st : Reg) (conf_dir : String)
        (idx : Reg),
        (exps_save_trace fs projects cwd st conf_dir).2 = .ok idx →
        ∀ l, countAcq l (exps_save_trace fs projects cwd st conf_dir).1
          = countRls l (exps_save_trace fs projects cwd st conf_dir).1) := by
  refine ⟨load_balanced, dump_balanced, ?_⟩
  intro fs projects cwd st conf_dir idx h l
  cases hl : expsSaveLoop fs projects cwd ([], [], st) st with
  | mk out err =>
    obtain ⟨tr, extra, st'⟩ := out
    cases err with
    | some e => simp [exps_save_trace, hl] at h
    | none =>
      obtain ⟨Δ, h1, h2⟩ := expsSaveLoop_delta fs projects cwd st [] [] st (tr, extra, st') hl
      simp only at h1
      subst h1
      cases hdp : (safe_dump_trace fs extra (.map (regToObj (masterIndex st')))
          (joinp conf_dir "experiments.yml")).2 with
      | error e => simp [exps_save_trace, hl, hdp] at h
      | ok u =>
        have hb := dump_balanced fs extra (.map (regToObj (masterIndex st')))
          (joinp conf_dir "experiments.yml") l
        have h2l := h2 l
        simp only [exps_save_trace, hl, hdp]
        simp [countAcq, countRls, List.countP_append, List.countP_cons] at hb h2l ⊢
        omega

/-- C3 (witness). -/
theorem c3_witness :
    countAcq "/cfg/experiments.yml.lck" (exps_save_trace fsNone [] "/" [] "/cfg").1
      = countRls "/cfg/experiments.yml.lck" (exps_save_trace fsNone [] "/" [] "/cfg").1 :=
  c3_locks_released.2.2 fsNone [] "/" [] "/cfg" [] rfl "/cfg/experiments.yml.lck"

/- ### C5: the metadata scan never records the project record file -/

theorem mem_of_getLast?_some {α : Type} : ∀ {l : List α} {a : α}, l.getLast? = some a → a ∈ l
  | [], _, h => by simp at h
  | [_], _, h => by simp_all
  | b :: c :: t, a, h => by
    have h' : (c :: t).getLast? = some a := by simpa [List.getLast?] using h
    exact List.mem_cons_of_mem b (mem_of_getLast?_some h')

theorem joinp_ne_projrecord (cfg f : String) (hf : hiddenName f = false) :
    joinp cfg f ≠ ".project.yml" := by
  intro h
  have hslash : ('/' : Char) ∉ ".project.yml".data := by decide
  by_cases ha : isabs f
  · simp only [joinp, if_pos ha] at h
    subst h
    exact absurd hf (by decide)
  · by_cases he : cfg = ""
    · simp only [joinp, if_neg ha, if_pos he, he] at h
      have hf' : f = ".project.yml" := by
        apply String.ext
        have := congrArg String.data h
        simpa [String.data_append] using this
      subst hf'
      exact absurd hf (by decide)
    · by_cases hs : endsSlash cfg.data
      · simp only [joinp, if_neg ha, if_neg he, if_pos hs] at h
        have hg : cfg.data.getLast? = some '/' := by
          simpa [endsSlash] using hs
        have hm : ('/' : Char) ∈ (cfg ++ f).data := by
          rw [String.data_append]
          exact List.mem_append_left _ (mem_of_getLast?_some hg)
        rw [h] at hm
        exact hslash hm
      · simp only [joinp, if_neg ha, if_neg he, if_neg hs] at h
        have hm : ('/' : Char) ∈ (cfg ++ "/" ++ f).data := by
          rw [String.data_append, String.data_append]
          exact List.mem_append_left _ (List.mem_append_right _ (by decide))
        rw [h] at hm
        exact hslash hm

theorem scanned_not_projrecord (f : String) (hy : ymlName f = true)
    (hh : hiddenName f = false) : stripYml f ≠ ".project" := by
  intro h
  have hdata : f.data.take (f.data.length - 4) = ".project".data := congrArg String.data h
  have hdrop : f.data.drop (f.data.length - 4) = '.' :: 'y' :: 'm' :: 'l' :: [] := by
    unfold ymlName at hy
    exact of_decide_eq_true (Bool.and_eq_true .. ▸ hy).2
  have hfull : f.data = ".project".data ++ ('.' :: 'y' :: 'm' :: 'l' :: []) := by
    rw [← hdata, ← hdrop, List.take_append_drop]
  have hhid : hiddenName f = true := by
    unfold hiddenName
    rw [hfull]
    rfl
  rw [hhid] at hh
  exact Bool.noConfusion hh

theorem regFind_set_self (st : Reg) (k : String) (v : Value) :
    regFind (regSet st k v) k = some v := by
  induction st with
  | nil => simp [regSet, regFind]
  | cons hd t ih =>
    obtain ⟨k', v'⟩ := hd
    by_cases h : k' = k <;> simp [regSet, regFind, h, ih]

theorem regFind_set_ne (st : Reg) (k k' : String) (v : Value) (h : k' ≠ k) :
    regFind (regSet st k v) k' = regFind st k' := by
  induction st with
  | nil => simp [regSet, regFind, Ne.symm h]
  | cons hd t ih =>
    obtain ⟨k0, v0⟩ := hd
    by_cases h0 : k0 = k
    · subst h0
      simp [regSet, regFind, Ne.symm h]
    · simp [regSet, regFind, h0, ih]

theorem pmGet_app_self (pm : PMap) (p : Value) (e : String) :
    pmGet (pmApp pm p e) p = pmGet pm p ++ [e] := by
  induction pm with
  | nil => simp [pmApp, pmGet]
  | cons hd t ih =>
    obtain ⟨p', l⟩ := hd
    by_cases h : p' = p <;> simp [pmApp, pmGet, h, ih]

theorem pmGet_app_ne (pm : PMap) (p q : Value) (e : String) (h : q ≠ p) :
    pmGet (pmApp pm p e) q = pmGet pm q := by
  induction pm with
  | nil => simp [pmApp, pmGet, Ne.symm h]
  | cons hd t ih =>
    obtain ⟨p0, l0⟩ := hd
    by_cases h0 : p0 = p
    · subst h0
      simp [pmApp, pmGet, Ne.symm h]
    · simp [pmApp, pmGet, h0, ih]

theorem pmGet_app_mono (pm : PMap) (p q : Value) (e x : String)
    (h : x ∈ pmGet pm q) : x ∈ pmGet (pmApp pm p e) q := by
  by_cases hpq : q = p
  · subst hpq
    rw [pmGet_app_self]
    exact List.mem_append_left _ h
  · rw [pmGet_app_ne _ _ _ _ hpq]
    exact h

theorem scanRet_find_self (cfg : String) (ret : Reg) (e : String) :
    ∃ v, regFind (scanRet cfg ret e) e = some v
      ∧ (v.isArch = true ∨ ∃ s, v = Value.str s) := by
  unfold scanRet
  cases hv : regFind ret e with
  | none =>
    exact ⟨_, regFind_set_self .., Or.inr ⟨_, rfl⟩⟩
  | some v =>
    cases hA : v.isArch with
    | true => exact ⟨v, by simp [hv, hA], Or.inl hA⟩
    | false =>
      refine ⟨.str (joinp cfg (e ++ ".yml")), ?_, Or.inr ⟨_, rfl⟩⟩
      simp [hv, hA, regFind_set_self]

theorem scanRet_find_ne (cfg : String) (ret : Reg) (e k : String) (h : k ≠ e) :
    regFind (scanRet cfg ret e) k = regFind ret k := by
  unfold scanRet
  cases hv : regFind ret e with
  | none => exact regFind_set_ne _ _ _ _ h
  | some v =>
    cases hA : v.isArch with
    | true => simp [hA]
    | false => simp [hA, regFind_set_ne _ _ _ _ h]

theorem scanPm_mem_self (proj : String) (pm : PMap) (e : String) :
    e ∈ pmGet (scanPm proj pm e) (.str proj) := by
  unfold scanPm
  by_cases h : e ∈ pmGet pm (.str proj)
  · simp [h]
  · simp only [h, if_false]
    rw [pmGet_app_self]
    exact List.mem_append_right _ (by simp)

theorem scanPm_mono (proj : String) (pm : PMap) (e x : String) (q : Value)
    (h : x ∈ pmGet pm q) : x ∈ pmGet (scanPm proj pm e) q := by
  unfold scanPm
  by_cases hc : e ∈ pmGet pm (.str proj)
  · simp [hc]
    exact h
  · simp only [hc, if_false]
    exact pmGet_app_mono _ _ _ _ _ h

theorem scanProject_mono (cfg proj : String) :
    ∀ (files : List String) (acc : Reg × PMap) (e : String) (pp : Value),
      (∃ v, regFind acc.1 e = some v ∧ (v.isArch = true ∨ ∃ s, v = Value.str s)) →
      e ∈ pmGet acc.2 pp →
      (∃ v, regFind (scanProject cfg proj acc files).1 e = some v
          ∧ (v.isArch = true ∨ ∃ s, v = Value.str s))
      ∧ e ∈ pmGet (scanProject cfg proj acc files).2 pp := by
  intro files
  induction files with
  | nil =>
    intro acc e pp h1 h2
    obtain ⟨ret, pm⟩ := acc
    exact ⟨h1, h2⟩
  | cons f rest ih =>
    intro acc e pp h1 h2
    obtain ⟨ret, pm⟩ := acc
    by_cases hskip : joinp cfg f = ".project.yml"
    · simp only [scanProject, if_pos hskip]
      exact ih _ e pp h1 h2
    · simp only [scanProject, if_neg hskip]
      apply ih
      · by_cases he : e = stripYml f
        · subst he
          exact scanRet_find_self cfg ret _
        · rw [scanRet_find_ne cfg ret _ e he]
          exact h1
      · exact scanPm_mono proj pm _ e pp h2

theorem scanProject_establishes (cfg proj : String) :
    ∀ (files : List String) (acc : Reg × PMap) (f : String),
      f ∈ files → (∀ g ∈ files, hiddenName g = false) →
      (∃ v, regFind (scanProject cfg proj acc files).1 (stripYml f) = some v
          ∧ (v.isArch = true ∨ ∃ s, v = Value.str s))
      ∧ stripYml f ∈ pmGet (scanProject cfg proj acc files).2 (.str proj) := by
  intro files
  induction files with
  | nil => intro acc f hf; exact absurd hf (List.not_mem_nil f)
  | cons f0 rest ih =>
    intro acc f hf hhid
    obtain ⟨ret, pm⟩ := acc
    have hskip : joinp cfg f0 ≠ ".project.yml" :=
      joinp_ne_projrecord cfg f0 (hhid f0 (List.mem_cons_self ..))
    simp only [scanProject, if_neg hskip]
    rcases List.mem_cons.mp hf with rfl | hmem
    · exact scanProject_mono cfg proj rest _ _ _
        (scanRet_find_self cfg ret (stripYml f))
        (scanPm_mem_self proj pm (stripYml f))
    · exact ih _ f hmem (fun g hg => hhid g (List.mem_cons_of_mem _ hg))

theorem scanProject_keys (cfg proj : String) :
    ∀ (files : List String) (acc : Reg × PMap) (k : String),
      (regFind (scanProject cfg proj acc files).1 k).isSome = true →
      (regFind acc.1 k).isSome = true ∨ ∃ f ∈ files, stripYml f = k := by
  intro files
  induction files with
  | nil =>
    intro acc k h
    obtain ⟨ret, pm⟩ := acc
    exact Or.inl h
  | cons f0 rest ih =>
    intro acc k h
    obtain ⟨ret, pm⟩ := acc
    by_cases hskip : joinp cfg f0 = ".project.yml"
    · simp only [scanProject, if_pos hskip] at h
      rcases ih _ k h with h' | ⟨f, hf, hsf⟩
      · exact Or.inl h'
      · exact Or.inr ⟨f, List.mem_cons_of_mem _ hf, hsf⟩
    · simp only [scanProject, if_neg hskip] at h
      rcases ih _ k h with h' | ⟨f, hf, hsf⟩
      · by_cases he : k = stripYml f0
        · exact Or.inr ⟨f0, List.mem_cons_self .., he.symm⟩
        · rw [scanRet_find_ne cfg ret _ k he] at h'
          exact Or.inl h'
      · exact Or.inr ⟨f, List.mem_cons_of_mem _ hf, hsf⟩

theorem expFilesLoop_mono (fs : Fs) :
    ∀ (prjs : List (String × Value)) (acc out : Reg × PMap) (e : String) (pp : Value),
      expFilesLoop fs acc prjs = .ok out →
      (∃ v, regFind acc.1 e = some v ∧ (v.isArch = true ∨ ∃ s, v = Value.str s)) →
      e ∈ pmGet acc.2 pp →
      (∃ v, regFind out.1 e = some v ∧ (v.isArch = true ∨ ∃ s, v = Value.str s))
      ∧ e ∈ pmGet out.2 pp := by
  intro prjs
  induction prjs with
  | nil =>
    intro acc out e pp h h1 h2
    simp only [expFilesLoop] at h
    cases h
    exact ⟨h1, h2⟩
  | cons hd rest ih =>
    intro acc out e pp h h1 h2
    obtain ⟨p0, d0⟩ := hd
    cases d0 with
    | map m0 =>
      simp only [expFilesLoop] at h
      cases hf0 : m0.find "root" with
      | none => simp [hf0] at h
      | some rv0 =>
        simp only [hf0] at h
        cases hsc0 : rv0.strContent with
        | none => simp [hsc0] at h
        | some rt0 =>
          simp only [hsc0] at h
          by_cases hex0 : fs.existsD (joinp rt0 ".project") = true
          · rw [if_pos hex0] at h
            cases hd0 : fs.dirs (joinp rt0 ".project") with
            | some l0 =>
              simp only [hd0] at h
              have hscan := scanProject_mono (joinp rt0 ".project") p0 (globYml l0)
                acc e pp h1 h2
              exact ih _ out e pp h hscan.1 hscan.2
            | none =>
              simp only [hd0] at h
              exact ih _ out e pp h h1 h2
          · rw [if_neg hex0] at h
            exact ih _ out e pp h h1 h2
    | null => simp [expFilesLoop] at h
    | str s => simp [expFilesLoop] at h
    | int n => simp [expFilesLoop] at h
    | bool b => simp [expFilesLoop] at h
    | seq l => simp [expFilesLoop] at h
    | arch s p => simp [expFilesLoop] at h

theorem expFilesLoop_establishes (fs : Fs) :
    ∀ (prjs : List (String × Value)) (acc out : Reg × PMap),
      expFilesLoop fs acc prjs = .ok out →
      ∀ (project : String) (m : Obj) (rootv : Value) (root : String)
        (listing : List String) (f : String),
        (project, Value.map m) ∈ prjs →
        m.find "root" = some rootv → rootv.strContent = some root →
        fs.dirs (joinp root ".project") = some listing →
        f ∈ globYml listing →
        (∃ v, regFind out.1 (stripYml f) = some v
            ∧ (v.isArch = true ∨ ∃ s, v = Value.str s))
        ∧ stripYml f ∈ pmGet out.2 (Value.str project) := by
  intro prjs
  induction prjs with
  | nil =>
    intro acc out h project m rootv root listing f hmem
    exact absurd hmem (List.not_mem_nil _)
  | cons hd rest ih =>
    intro acc out h project m rootv root listing f hmem hfind hsc hdirs hglob
    obtain ⟨p0, d0⟩ := hd
    rcases List.mem_cons.mp hmem with heq | hmem'
    · injection heq with h1 h2
      subst h1
      subst h2
      simp only [expFilesLoop, hfind, hsc] at h
      have hex : fs.existsD (joinp root ".project") = true := by
        simp [Fs.existsD, hdirs]
      rw [if_pos hex] at h
      simp only [hdirs] at h
      have hhid : ∀ g ∈ globYml listing, hiddenName g = false := by
        intro g hg
        have := (List.mem_filter.mp hg).2
        have hb := Bool.and_eq_true .. ▸ this
        simpa using hb.2
      have hscan := scanProject_establishes (joinp root ".project") project
        (globYml listing) acc f hglob hhid
      exact expFilesLoop_mono fs rest _ out _ _ h hscan.1 hscan.2
    · cases d0 with
      | map m0 =>
        simp only [expFilesLoop] at h
        cases hf0 : m0.find "root" with
        | none => simp [hf0] at h
        | some rv0 =>
          simp only [hf0] at h
          cases hsc0 : rv0.strContent with
          | none => simp [hsc0] at h
          | some rt0 =>
            simp only [hsc0] at h
            by_cases hex0 : fs.existsD (joinp rt0 ".project") = true
            · rw [if_pos hex0] at h
              cases hd0 : fs.dirs (joinp rt0 ".project") with
              | some l0 =>
                simp only [hd0] at h
                exact ih _ out h project m rootv root listing f hmem' hfind hsc hdirs hglob
              | none =>
                simp only [hd0] at h
                exact ih _ out h project m rootv root listing f hmem' hfind hsc hdirs hglob
            · rw [if_neg hex0] at h
              exact ih _ out h project m rootv root listing f hmem' hfind hsc hdirs hglob
      | null => simp [expFilesLoop] at h
      | str s => simp [expFilesLoop] at h
      | int n => simp [expFilesLoop] at h
      | bool b => simp [expFilesLoop] at h
      | seq l => simp [expFilesLoop] at h
      | arch s p => simp [expFilesLoop] at h

theorem expFilesLoop_keys (fs : Fs) :
    ∀ (prjs : List (String × Value)) (acc out : Reg × PMap) (k : String),
      expFilesLoop fs acc prjs = .ok out →
      (regFind out.1 k).isSome = true →
      (regFind acc.1 k).isSome = true
      ∨ ∃ f, ymlName f = true ∧ hiddenName f = false ∧ stripYml f = k := by
  intro prjs
  induction prjs with
  | nil =>
    intro acc out k h hk
    simp only [expFilesLoop] at h
    cases h
    exact Or.inl hk
  | cons hd rest ih =>
    intro acc out k h hk
    obtain ⟨p0, d0⟩ := hd
    cases d0 with
    | map m0 =>
      simp only [expFilesLoop] at h
      cases hf0 : m0.find "root" with
      | none => simp [hf0] at h
      | some rv0 =>
        simp only [hf0] at h
        cases hsc0 : rv0.strContent with
        | none => simp [hsc0] at h
        | some rt0 =>
          simp only [hsc0] at h
          by_cases hex0 : fs.existsD (joinp rt0 ".project") = true
          · rw [if_pos hex0] at h
            cases hd0 : fs.dirs (joinp rt0 ".project") with
            | some l0 =>
              simp only [hd0] at h
              rcases ih _ out k h hk with h' | h'
              · rcases scanProject_keys (joinp rt0 ".project") p0 (globYml l0) acc k h'
                  with h'' | ⟨f, hf, hsf⟩
                · exact Or.inl h''
                · have hp := (List.mem_filter.mp hf).2
                  have hb := Bool.and_eq_true .. ▸ hp
                  exact Or.inr ⟨f, hb.1, by simpa using hb.2, hsf⟩
              · exact Or.inr h'
            | none =>
              simp only [hd0] at h
              exact ih _ out k h hk
          · rw [if_neg hex0] at h
            exact ih _ out k h hk
    | null => simp [expFilesLoop] at h
    | str s => simp [expFilesLoop] at h
    | int n => simp [expFilesLoop] at h
    | bool b => simp [expFilesLoop] at h
    | seq l => simp [expFilesLoop] at h
    | arch s p => simp [expFilesLoop] at h

/-- A filesystem with one project metadata directory `/p/.project` listing a
single experiment file `e1.yml` (no master index). -/
def fsScan : Fs :=
  ⟨fun _ => none,
   fun p => if p = "/p/.project" then some ["e1.yml"] else none,
   fun _ => true⟩

/-- C5: with no explicit documents, the per-project scan of
`<project_root>/.project/*.yml` never records the project's own record file
`.project.yml` as an experiment entry — `glob`'s `*` does not match a leading
dot, so the hidden `.project.yml` is never globbed and the name `.project`
can only be present if the master index already held it; and every globbed
file of every project whose name is not already stored as an `Archive` ends
up as a pending reference string, with its name recorded in the
project→experiments index under that project. -/
theorem c5_scan_never_records_project_record (fs : Fs) (projects : Reg)
    (conf_dir : String) (pm : PMap) (ret' : Reg) (pm' : PMap)
    (h : exp_files fs projects conf_dir pm = .ok (ret', pm')) :
    (∀ ms, master_entries fs conf_dir = .ok ms →
      (regFind ret' ".project").isSome = true →
      (regFind (insertAll [] ms) ".project").isSome = true)
    ∧ (∀ (project : String) (m : Obj) (rootv : Value) (root : String)
        (listing : List String) (f : String),
        (project, Value.map m) ∈ projects →
        m.find "root" = some rootv →
        rootv.strContent = some root →
        fs.dirs (joinp root ".project") = some listing →
        f ∈ globYml listing →
        (∃ v, regFind ret' (stripYml f) = some v
            ∧ (v.isArch = true ∨ ∃ s, v = Value.str s))
        ∧ stripYml f ∈ pmGet pm' (Value.str project)) := by
  unfold exp_files at h
  cases hm : master_entries fs conf_dir with
  | error e => rw [hm] at h; simp at h
  | ok ms0 =>
    simp only [hm] at h
    constructor
    · intro ms hms hk
      have hinj : ms0 = ms := by injection hms
      subst hinj
      rcases expFilesLoop_keys fs projects _ (ret', pm') ".project" h hk with h' | ⟨f, hy, hh, hsf⟩
      · exact h'
      · exact absurd hsf (scanned_not_projrecord f hy hh)
    · intro project m rootv root listing f hmem hfind hsc hdirs hglob
      exact expFilesLoop_establishes fs projects _ (ret', pm') h project m rootv root
        listing f hmem hfind hsc hdirs hglob

/-- C5 (witness). -/
theorem c5_witness :
    (∃ v, regFind [("e1", Value.str "/p/.project/e1.yml")] (stripYml "e1.yml") = some v
        ∧ (v.isArch = true ∨ ∃ s, v = Value.str s))
    ∧ stripYml "e1.yml" ∈ pmGet [(Value.str "P", ["e1"])] (Value.str "P") :=
  (c5_scan_never_records_project_record fsScan
      [("P", Value.map (.cons "root" (.str "/p") .nil))] "/cfg" []
      [("e1", Value.str "/p/.project/e1.yml")] [(Value.str "P", ["e1"])] rfl).2
    "P" (.cons "root" (.str "/p") .nil) (.str "/p") "/p" ["e1.yml"] "e1.yml"
    (by simp) rfl rfl rfl (by decide)

/- ### C8: archiving keeps the name indexed and the master index marks it -/

theorem masterIndex_find (st : Reg) (k : String) :
    regFind (masterIndex st) k
      = (regFind st k).map (fun v => if v.isArch then v else .null) := by
  induction st with
  | nil => simp [masterIndex, regFind]
  | cons hd t ih =>
    obtain ⟨k0, v0⟩ := hd
    simp only [masterIndex] at ih
    by_cases h : k0 = k <;> simp [masterIndex, regFind, h, ih]

theorem regSet_mem_self (st : Reg) (k : String) (v : Value) :
    (k, v) ∈ regSet st k v := by
  induction st with
  | nil => simp [regSet]
  | cons hd t ih =>
    obtain ⟨k0, v0⟩ := hd
    by_cases h : k0 = k
    · subst h
      simp [regSet]
    · simp only [regSet, if_neg h]
      exact List.mem_cons_of_mem _ ih

theorem pm_upd_mono :
    ∀ (st : Reg) (pm pm' : PMap), project_map_upd pm st = .ok pm' →
      ∀ (x : String) (q : Value), x ∈ pmGet pm q → x ∈ pmGet pm' q := by
  intro st
  induction st with
  | nil =>
    intro pm pm' h x q hx
    simp only [project_map_upd] at h
    cases h
    exact hx
  | cons hd rest ih =>
    intro pm pm' h x q hx
    obtain ⟨k0, v0⟩ := hd
    cases v0 with
    | map m0 =>
      simp only [project_map_upd] at h
      cases hp : m0.find "project" with
      | none => simp [hp] at h
      | some p =>
        simp only [hp] at h
        by_cases hh : p.hashable = true
        · rw [if_pos hh] at h
          apply ih _ _ h
          by_cases hin : k0 ∈ pmGet pm p
          · rw [if_pos hin]; exact hx
          · rw [if_neg hin]
            exact pmGet_app_mono _ _ _ _ _ hx
        · rw [if_neg hh] at h
          simp at h
    | arch s0 pv0 =>
      simp only [project_map_upd] at h
      by_cases hh : pv0.hashable = true
      · rw [if_pos hh] at h
        apply ih _ _ h
        by_cases hin : k0 ∈ pmGet pm pv0
        · rw [if_pos hin]; exact hx
        · rw [if_neg hin]
          exact pmGet_app_mono _ _ _ _ _ hx
      · rw [if_neg hh] at h
        simp at h
    | null => exact ih _ _ (by simpa [project_map_upd] using h) x q hx
    | str s0 => exact ih _ _ (by simpa [project_map_upd] using h) x q hx
    | int n0 => exact ih _ _ (by simpa [project_map_upd] using h) x q hx
    | bool b0 => exact ih _ _ (by simpa [project_map_upd] using h) x q hx
    | seq l0 => exact ih _ _ (by simpa [project_map_upd] using h) x q hx

theorem pm_upd_mem :
    ∀ (st : Reg) (pm pm' : PMap), project_map_upd pm st = .ok pm' →
      ∀ (k s' : String) (pv : Value), (k, Value.arch s' pv) ∈ st →
        k ∈ pmGet pm' pv := by
  intro st
  induction st with
  | nil =>
    intro pm pm' h k s' pv hmem
    exact absurd hmem (List.not_mem_nil _)
  | cons hd rest ih =>
    intro pm pm' h k s' pv hmem
    obtain ⟨k0, v0⟩ := hd
    rcases List.mem_cons.mp hmem with heq | hmem'
    · injection heq with h1 h2
      subst h1
      subst h2
      simp only [project_map_upd] at h
      by_cases hh : pv.hashable = true
      · rw [if_pos hh] at h
        apply pm_upd_mono rest _ _ h
        by_cases hin : k ∈ pmGet pm pv
        · rw [if_pos hin]; exact hin
        · rw [if_neg hin]
          rw [pmGet_app_self]
          exact List.mem_append_right _ (by simp)
      · rw [if_neg hh] at h
        simp at h
    · cases v0 with
      | map m0 =>
        simp only [project_map_upd] at h
        cases hp : m0.find "project" with
        | none => simp [hp] at h
        | some p =>
          simp only [hp] at h
          by_cases hh : p.hashable = true
          · rw [if_pos hh] at h
            exact ih _ _ h k s' pv hmem'
          · rw [if_neg hh] at h
            simp at h
      | arch s0 pv0 =>
        simp only [project_map_upd] at h
        by_cases hh : pv0.hashable = true
        · rw [if_pos hh] at h
          exact ih _ _ h k s' pv hmem'
        · rw [if_neg hh] at h
          simp at h
      | null => exact ih _ _ (by simpa [project_map_upd] using h) k s' pv hmem'
      | str s0 => exact ih _ _ (by simpa [project_map_upd] using h) k s' pv hmem'
      | int n0 => exact ih _ _ (by simpa [project_map_upd] using h) k s' pv hmem'
      | bool b0 => exact ih _ _ (by simpa [project_map_upd] using h) k s' pv hmem'
      | seq l0 => exact ih _ _ (by simpa [project_map_upd] using h) k s' pv hmem'

/-- C8: after assigning an `Archive` marker carrying project `P` to an
experiment name (which first recomputes the project→experiments index on the
registry as it was before the change, then stores the marker), the name is
present under `P` in the `project_map` index as read afterwards; and the
master index that a subsequent `save()` dumps maps that name to the
non-null `Archive` marker and every non-archived name to null. -/
theorem c8_archive_indexed (pm pm₁ pm₂ : PMap) (st st₁ : Reg)
    (name s : String) (P : String)
    (hset : exps_setitem pm st name (.arch s (.str P)) = .ok (pm₁, st₁))
    (hupd : project_map_upd pm₁ st₁ = .ok pm₂) :
    name ∈ pmGet pm₂ (Value.str P)
    ∧ regFind (masterIndex st₁) name = some (.arch s (.str P))
    ∧ (∀ k v, regFind st₁ k = some v → v.isArch = false →
        regFind (masterIndex st₁) k = some .null) := by
  have hst : st₁ = regSet st name (.arch s (.str P)) := by
    simp only [exps_setitem, Value.isArch] at hset
    cases hu : project_map_upd pm st with
    | error e => rw [hu] at hset; simp at hset
    | ok pmx =>
      rw [hu] at hset
      simp at hset
      exact hset.2.symm
  refine ⟨?_, ?_, ?_⟩
  · exact pm_upd_mem st₁ pm₁ pm₂ hupd name s (.str P)
      (hst ▸ regSet_mem_self st name (.arch s (.str P)))
  · rw [masterIndex_find, hst, regFind_set_self]
    simp [Value.isArch]
  · intro k v hk hv
    rw [masterIndex_find, hk]
    simp [hv]

/-- C8 (witness). -/
theorem c8_witness :
    "e" ∈ pmGet [(Value.str "P", ["e"])] (Value.str "P")
    ∧ regFind (masterIndex [("e", Value.arch "x" (.str "P"))]) "e"
        = some (.arch "x" (.str "P")) := by
  have h := c8_archive_indexed [] [] [(Value.str "P", ["e"])] []
    [("e", Value.arch "x" (.str "P"))] "e" "x" "P" rfl rfl
  exact ⟨h.1, h.2.1⟩

/- ### C6: round-trip and idempotence of the path rewriters -/

/-- A canonical relative path: not absolute, and every `'/'`-separated
component is non-empty and neither `"."` nor `".."`. -/
def canonRelB (s : String) : Bool :=
  !isabs s && (parts s).all fun p => p ≠ "" && p ≠ "." && p ≠ ".."

/-- Join a component list back into a path string. -/
def joinPartsStr (ps : List String) : String :=
  String.mk (joinChars (ps.map String.data))

theorem isabs_head (r : String) (hr : isabs r = true) :
    ∃ t, r.data = '/' :: t := by
  unfold isabs at hr
  have h := eq_of_beq hr
  cases hd : r.data with
  | nil => rw [hd] at h; simp at h
  | cons c cs =>
    rw [hd] at h
    simp at h
    exact ⟨cs, by rw [h]⟩

theorem isabs_append (r s : String) (hr : isabs r = true) :
    isabs (r ++ s) = true := by
  obtain ⟨t, ht⟩ := isabs_head r hr
  unfold isabs
  rw [String.data_append, ht]
  simp

theorem isabs_ne_empty (r : String) (hr : isabs r = true) : r ≠ "" := by
  obtain ⟨t, ht⟩ := isabs_head r hr
  intro h
  rw [h] at ht
  simp at ht

theorem isabs_joinp (r s : String) (hr : isabs r = true) :
    isabs (joinp r s) = true := by
  unfold joinp
  by_cases hs : isabs s = true
  · rw [if_pos hs]; exact hs
  · rw [if_neg hs, if_neg (isabs_ne_empty r hr)]
    by_cases he : endsSlash r.data = true
    · rw [if_pos he]; exact isabs_append r s hr
    · rw [if_neg he]; exact isabs_append _ s (isabs_append r "/" hr)

theorem splitChars_ne_nil : ∀ cs : List Char, splitChars cs ≠ [] := by
  intro cs
  cases cs with
  | nil => simp [splitChars]
  | cons c t =>
    by_cases h : c = '/'
    · simp [splitChars, h]
    · simp only [splitChars, if_neg h]
      cases ht : splitChars t <;> simp

theorem splitChars_append : ∀ a b : List Char,
    splitChars (a ++ '/' :: b) = splitChars a ++ splitChars b := by
  intro a b
  induction a with
  | nil => simp [splitChars]
  | cons c t ih =>
    by_cases h : c = '/'
    · simp [splitChars, h, ih]
    · simp only [List.cons_append, splitChars, if_neg h, List.append_eq]
      rw [ih]
      cases ht : splitChars t with
      | nil => exact absurd ht (splitChars_ne_nil t)
      | cons p ps => simp

theorem joinChars_splitChars : ∀ cs : List Char, joinChars (splitChars cs) = cs := by
  intro cs
  induction cs with
  | nil => rfl
  | cons c t ih =>
    by_cases h : c = '/'
    · subst h
      simp only [splitChars, if_pos rfl]
      cases ht : splitChars t with
      | nil => exact absurd ht (splitChars_ne_nil t)
      | cons p ps =>
        rw [ht] at ih
        simp [joinChars, ih]
    · simp only [splitChars, if_neg h]
      cases ht : splitChars t with
      | nil => exact absurd ht (splitChars_ne_nil t)
      | cons p ps =>
        rw [ht] at ih
        cases ps with
        | nil => simp_all [joinChars]
        | cons q qs => simp_all [joinChars]

theorem eq_append_of_getLast? {α : Type} :
    ∀ (l : List α) (c : α), l.getLast? = some c → ∃ l', l = l' ++ [c] := by
  intro l
  induction l with
  | nil => intro c h; simp at h
  | cons a t ih =>
    intro c h
    cases t with
    | nil =>
      simp at h
      exact ⟨[], by simp [h]⟩
    | cons b u =>
      have h' : (b :: u).getLast? = some c := by simpa [List.getLast?] using h
      obtain ⟨l', hl⟩ := ih c h'
      exact ⟨a :: l', by simp [hl]⟩

theorem parts_append_slash (x y : String) :
    parts (x ++ "/" ++ y) = parts x ++ parts y := by
  unfold parts
  have hd : (x ++ "/" ++ y).data = x.data ++ '/' :: y.data := by
    rw [String.data_append, String.data_append, List.append_assoc]
    rfl
  rw [hd, splitChars_append, List.map_append]

theorem filtParts_append (a b : List String) :
    filtParts (a ++ b) = filtParts a ++ filtParts b := by
  simp [filtParts, List.filter_append]

theorem filtParts_joinp (r s : String) (hr : isabs r = true) (hs : isabs s = false) :
    filtParts (parts (joinp r s)) = filtParts (parts r) ++ filtParts (parts s) := by
  unfold joinp
  rw [if_neg (by simp [hs]), if_neg (isabs_ne_empty r hr)]
  by_cases he : endsSlash r.data = true
  · rw [if_pos he]
    have hg : r.data.getLast? = some '/' := by simpa [endsSlash] using he
    obtain ⟨rl, hrl⟩ := eq_append_of_getLast? r.data '/' hg
    have h1 : (r ++ s).data = rl ++ '/' :: s.data := by
      rw [String.data_append, hrl]
      simp
    have h2 : parts (r ++ s) = (splitChars rl).map String.mk ++ parts s := by
      unfold parts
      rw [h1, splitChars_append]
      simp
    have h3 : parts r = (splitChars rl).map String.mk ++ [""] := by
      unfold parts
      rw [hrl]
      have : rl ++ ['/'] = rl ++ '/' :: ([] : List Char) := by simp
      rw [this, splitChars_append]
      simp [splitChars]
    rw [h2, h3, filtParts_append, filtParts_append]
    simp [filtParts]
  · rw [if_neg he]
    rw [parts_append_slash, filtParts_append]

theorem resolveAbs_append (xs ys : List String) :
    ∀ st, resolveAbs st (xs ++ ys) = resolveAbs ((resolveAbs st xs).reverse) ys := by
  induction xs with
  | nil => intro st; simp [resolveAbs]
  | cons p ps ih =>
    intro st
    by_cases h : p = ".."
    · simp only [List.cons_append, resolveAbs, if_pos h]
      exact ih _
    · simp only [List.cons_append, resolveAbs, if_neg h]
      exact ih _

theorem resolveAbs_no_ddots (ys : List String) (h : ∀ y ∈ ys, y ≠ "..") :
    ∀ st, resolveAbs st ys = st.reverse ++ ys := by
  induction ys with
  | nil => intro st; simp [resolveAbs]
  | cons y ys ih =>
    intro st
    have hy : y ≠ ".." := h y (List.mem_cons_self ..)
    simp only [resolveAbs, if_neg hy]
    rw [ih (fun z hz => h z (List.mem_cons_of_mem _ hz))]
    simp

theorem canonRel_parts (s : String) (hc : canonRelB s = true) :
    isabs s = false
    ∧ filtParts (parts s) = parts s
    ∧ (∀ p ∈ parts s, p ≠ "..") := by
  unfold canonRelB at hc
  have hb := Bool.and_eq_true .. ▸ hc
  have habs : isabs s = false := by simpa using hb.1
  have hall := hb.2
  rw [List.all_eq_true] at hall
  refine ⟨habs, ?_, ?_⟩
  · apply List.filter_eq_self.mpr
    intro p hp
    have := hall p hp
    have h3 := Bool.and_eq_true .. ▸ this
    have h4 := Bool.and_eq_true .. ▸ h3.1
    simp only [Bool.and_eq_true, decide_eq_true_eq]
    constructor
    · simpa using h4.1
    · simpa using h4.2
  · intro p hp
    have := hall p hp
    have h3 := Bool.and_eq_true .. ▸ this
    simpa using h3.2

theorem absComps_joinp (cwd r s : String) (hr : isabs r = true)
    (hc : canonRelB s = true) :
    absComps cwd (joinp r s) = absComps cwd r ++ parts s := by
  obtain ⟨habs, hfilt, hdd⟩ := canonRel_parts s hc
  unfold absComps
  rw [if_pos (isabs_joinp r s hr), if_pos hr]
  rw [filtParts_joinp r s hr habs, hfilt]
  rw [resolveAbs_append, resolveAbs_no_ddots (parts s) hdd]
  simp

theorem commonLen_self_append : ∀ (a b : List String), commonLen a (a ++ b) = a.length := by
  intro a b
  induction a with
  | nil => simp [commonLen]
  | cons x xs ih => simp [commonLen, ih]

theorem parts_ne_nil (s : String) : parts s ≠ [] := by
  unfold parts
  intro h
  exact splitChars_ne_nil s.data (by simpa using h)

theorem joinPartsStr_parts (s : String) : joinPartsStr (parts s) = s := by
  unfold joinPartsStr parts
  apply String.ext
  have hmm : ∀ l : List Char, (String.mk l).data = l := fun _ => rfl
  rw [List.map_map]
  have : (String.data ∘ String.mk) = id := funext fun l => hmm l
  rw [this, List.map_id, joinChars_splitChars]

theorem relpath_joinp (cwd r s : String) (hr : isabs r = true)
    (hc : canonRelB s = true) :
    relpath cwd (joinp r s) r = s := by
  have hcomp : relComps cwd (joinp r s) r = parts s := by
    simp only [relComps]
    rw [absComps_joinp cwd r s hr hc, commonLen_self_append, List.drop_left]
    simp
  unfold relpath
  rw [hcomp]
  cases hp : parts s with
  | nil => exact absurd hp (parts_ne_nil s)
  | cons p ps =>
    have hj := joinPartsStr_parts s
    rw [hp] at hj
    simpa [joinPartsStr] using hj

/-- Are all elements of a sequence canonical relative path strings? -/
def allCanonStr : VList → Bool
  | .nil => true
  | .cons (.str s) t => canonRelB s && allCanonStr t
  | _ => false

/-- A path-key value on which `fix_paths` and `rel_paths` are exact
inverses: a canonical relative string, a non-empty sequence of canonical
relative strings, a sequence with a non-string first element, or a
non-string scalar. -/
def goodLeaf : Value → Bool
  | .str s => canonRelB s
  | .arch _ _ => false
  | .seq .nil => false
  | .seq (.cons (.str s) t) => canonRelB s && allCanonStr t
  | .seq (.cons (.arch _ _) _) => false
  | .seq (.cons _ _) => true
  | _ => true

/-- A document whose path-key values are all `goodLeaf`, recursively through
nested mappings. -/
def goodO : Obj → Bool
  | .nil => true
  | .cons k v rest =>
    (match v with
     | .map m => goodO m
     | _ => if k ∈ pathKeys then goodLeaf v else true) && goodO rest

def vjoin_canon_roundtrip (r cwd : String) (hr : isabs r = true) :
    (l : VList) → allCanonStr l = true →
      (vjoin (.str r) l).2 = none
      ∧ vrel cwd (.str r) (vjoin (.str r) l).1 = (l, none)
  | .nil => fun _ => ⟨rfl, rfl⟩
  | .cons v t => by
    intro hc
    cases v with
    | str s =>
      simp only [allCanonStr, Bool.and_eq_true] at hc
      have iht := vjoin_canon_roundtrip r cwd hr t hc.2
      constructor
      · simp [vjoin, Value.strContent, jnRoot, iht.1]
      · simp [vjoin, Value.strContent, jnRoot, vrel, rpRoot,
          relpath_joinp cwd r s hr hc.1, iht.2]
    | null => simp [allCanonStr] at hc
    | int n => simp [allCanonStr] at hc
    | bool b => simp [allCanonStr] at hc
    | seq l0 => simp [allCanonStr] at hc
    | map m => simp [allCanonStr] at hc
    | arch s p => simp [allCanonStr] at hc

theorem leaf_roundtrip (r cwd : String) (hr : isabs r = true) :
    ∀ v : Value, goodLeaf v = true →
      (fixLeaf (.str r) v).2 = none
      ∧ relLeaf cwd (.str r) (fixLeaf (.str r) v).1 = (v, none) := by
  intro v hv
  cases v with
  | str s =>
    have hc : canonRelB s = true := hv
    have habs : isabs s = false := (canonRel_parts s hc).1
    constructor
    · simp [fixLeaf, habs, jnRoot, Value.strContent]
    · simp [fixLeaf, habs, jnRoot, Value.strContent, relLeaf,
        isabs_joinp r s hr, rpRoot, relpath_joinp cwd r s hr hc]
  | arch s p => simp [goodLeaf] at hv
  | seq l =>
    cases l with
    | nil => simp [goodLeaf] at hv
    | cons h0 t =>
      cases h0 with
      | str s0 =>
        simp only [goodLeaf, Bool.and_eq_true] at hv
        have hcanon : allCanonStr (.cons (.str s0) t) = true := by
          simp [allCanonStr, hv.1, hv.2]
        have habs : isabs s0 = false := (canonRel_parts s0 hv.1).1
        have hvj := vjoin_canon_roundtrip r cwd hr (.cons (.str s0) t) hcanon
        constructor
        · simp [fixLeaf, Value.strContent, habs, hvj.1]
        · have hhead : (vjoin (.str r) (.cons (.str s0) t)).1
              = .cons (.str (joinp r s0)) (vjoin (.str r) t).1 := by
            simp [vjoin, Value.strContent, jnRoot]
          simp only [fixLeaf, Value.strContent, habs, Bool.false_eq_true, if_false]
          rw [hhead]
          simp only [relLeaf, Value.strContent, isabs_joinp r s0 hr, if_true]
          rw [← hhead]
          simp [hvj.2]
      | arch s0 p0 => simp [goodLeaf] at hv
      | null => exact ⟨rfl, rfl⟩
      | int n0 => exact ⟨rfl, rfl⟩
      | bool b0 => exact ⟨rfl, rfl⟩
      | seq l0 => exact ⟨rfl, rfl⟩
      | map m0 => exact ⟨rfl, rfl⟩
  | null => exact ⟨rfl, rfl⟩
  | int n => exact ⟨rfl, rfl⟩
  | bool b => exact ⟨rfl, rfl⟩
  | map m => exact ⟨rfl, rfl⟩

theorem pathRel_not_map (v v' : Value) (h : pathRel v v' = true)
    (hv : v.isMap = false) : v'.isMap = false := by
  cases v' with
  | map m' =>
    cases v <;> simp_all [pathRel, Value.strContent, Value.isMap]
  | null => simp [Value.isMap]
  | str s => simp [Value.isMap]
  | int n => simp [Value.isMap]
  | bool b => simp [Value.isMap]
  | seq l => simp [Value.isMap]
  | arch s p => simp [Value.isMap]

theorem fixLeaf_not_map (root v : Value) (hv : v.isMap = false) :
    ((fixLeaf root v).1).isMap = false :=
  pathRel_not_map v _ (fixLeaf_pathRel root v) hv

theorem fixO_cons_nonmap (root : Value) (k : String) (v : Value) (rest : Obj)
    (hv : v.isMap = false) :
    fixO root (.cons k v rest) =
      if k ∈ pathKeys then
        (match (fixLeaf root v).2 with
         | some e => (.cons k (fixLeaf root v).1 rest, some e)
         | none => (.cons k (fixLeaf root v).1 (fixO root rest).1, (fixO root rest).2))
      else (.cons k v (fixO root rest).1, (fixO root rest).2) := by
  cases v with
  | map m => simp [Value.isMap] at hv
  | null => rfl
  | str s => rfl
  | int n => rfl
  | bool b => rfl
  | seq l => rfl
  | arch s p => rfl

theorem relO_cons_nonmap (cwd : String) (root : Value) (k : String) (v : Value)
    (rest : Obj) (hv : v.isMap = false) :
    relO cwd root (.cons k v rest) =
      if k ∈ pathKeys then
        (match (relLeaf cwd root v).2 with
         | some e => (.cons k (relLeaf cwd root v).1 rest, some e)
         | none => (.cons k (relLeaf cwd root v).1 (relO cwd root rest).1,
             (relO cwd root rest).2))
      else (.cons k v (relO cwd root rest).1, (relO cwd root rest).2) := by
  cases v with
  | map m => simp [Value.isMap] at hv
  | null => rfl
  | str s => rfl
  | int n => rfl
  | bool b => rfl
  | seq l => rfl
  | arch s p => rfl

theorem goodO_step_nonmap (r cwd : String) (k : String) (v : Value) (rest : Obj)
    (hr : isabs r = true) (hvm : v.isMap = false)
    (hv : (if k ∈ pathKeys then goodLeaf v else true) = true)
    (ihrest : (fixO (.str r) rest).2 = none
      ∧ relO cwd (.str r) (fixO (.str r) rest).1 = (rest, none)) :
    (fixO (.str r) (.cons k v rest)).2 = none
    ∧ relO cwd (.str r) (fixO (.str r) (.cons k v rest)).1
        = (.cons k v rest, none) := by
  by_cases hk : k ∈ pathKeys
  · rw [if_pos hk] at hv
    have hleaf := leaf_roundtrip r cwd hr v hv
    rw [fixO_cons_nonmap _ _ _ _ hvm, if_pos hk]
    cases h2 : (fixLeaf (Value.str r) v).2 with
    | some e => rw [h2] at hleaf; simp at hleaf
    | none =>
      constructor
      · exact ihrest.1
      · rw [relO_cons_nonmap _ _ _ _ _ (fixLeaf_not_map _ v hvm), if_pos hk]
        rw [show relLeaf cwd (.str r) (fixLeaf (.str r) v).1 = (v, none) from hleaf.2]
        simp [ihrest.2]
  · rw [fixO_cons_nonmap _ _ _ _ hvm, if_neg hk]
    constructor
    · exact ihrest.1
    · rw [relO_cons_nonmap _ _ _ _ _ hvm, if_neg hk]
      simp [ihrest.2]

def goodO_fix_rel (r cwd : String) (hr : isabs r = true) :
    (d : Obj) → goodO d = true →
      (fixO (.str r) d).2 = none
      ∧ relO cwd (.str r) (fixO (.str r) d).1 = (d, none)
  | .nil => fun _ => ⟨rfl, rfl⟩
  | .cons k v rest => by
    intro hg
    cases v with
    | map m =>
      simp only [goodO, Bool.and_eq_true] at hg
      obtain ⟨hv, hrest⟩ := hg
      have ihrest := goodO_fix_rel r cwd hr rest hrest
      have ihm := goodO_fix_rel r cwd hr m hv
      constructor
      · simp only [fixO, ihm.1]
        exact ihrest.1
      · simp only [fixO, ihm.1]
        simp only [relO, ihm.2]
        simp [ihrest.2]
    | null =>
      simp only [goodO, Bool.and_eq_true] at hg
      exact goodO_step_nonmap r cwd k .null rest hr rfl hg.1
        (goodO_fix_rel r cwd hr rest hg.2)
    | str s =>
      simp only [goodO, Bool.and_eq_true] at hg
      exact goodO_step_nonmap r cwd k (.str s) rest hr rfl hg.1
        (goodO_fix_rel r cwd hr rest hg.2)
    | int n =>
      simp only [goodO, Bool.and_eq_true] at hg
      exact goodO_step_nonmap r cwd k (.int n) rest hr rfl hg.1
        (goodO_fix_rel r cwd hr rest hg.2)
    | bool b =>
      simp only [goodO, Bool.and_eq_true] at hg
      exact goodO_step_nonmap r cwd k (.bool b) rest hr rfl hg.1
        (goodO_fix_rel r cwd hr rest hg.2)
    | seq l =>
      simp only [goodO, Bool.and_eq_true] at hg
      exact goodO_step_nonmap r cwd k (.seq l) rest hr rfl hg.1
        (goodO_fix_rel r cwd hr rest hg.2)
    | arch s p =>
      simp only [goodO, Bool.and_eq_true] at hg
      exact goodO_step_nonmap r cwd k (.arch s p) rest hr rfl hg.1
        (goodO_fix_rel r cwd hr rest hg.2)

theorem fixLeaf_idem (r : String) (hr : isabs r = true) (v v' : Value)
    (h : fixLeaf (.str r) v = (v', none)) : fixLeaf (.str r) v' = (v', none) := by
  cases v with
  | str s =>
    by_cases ha : isabs s = true
    · simp only [fixLeaf, ha, if_true] at h
      obtain ⟨rfl, -⟩ := Prod.mk.injEq .. ▸ h
      simp [fixLeaf, ha]
    · simp only [fixLeaf, ha, Bool.false_eq_true, if_false, jnRoot, Value.strContent] at h
      obtain ⟨rfl, -⟩ := Prod.mk.injEq .. ▸ h
      simp [fixLeaf, isabs_joinp r s hr]
  | arch s p =>
    by_cases ha : isabs s = true
    · simp only [fixLeaf, ha, if_true] at h
      obtain ⟨rfl, -⟩ := Prod.mk.injEq .. ▸ h
      simp [fixLeaf, ha]
    · simp only [fixLeaf, ha, Bool.false_eq_true, if_false, jnRoot, Value.strContent] at h
      obtain ⟨rfl, -⟩ := Prod.mk.injEq .. ▸ h
      simp [fixLeaf, isabs_joinp r s hr]
  | seq l =>
    cases l with
    | nil => simp [fixLeaf] at h
    | cons h0 t =>
      cases h0 with
      | str s0 =>
        by_cases ha : isabs s0 = true
        · simp only [fixLeaf, Value.strContent, ha, if_true] at h
          obtain ⟨rfl, -⟩ := Prod.mk.injEq .. ▸ h
          simp [fixLeaf, Value.strContent, ha]
        · simp only [fixLeaf, Value.strContent, ha, Bool.false_eq_true, if_false] at h
          have hjoin : vjoin (Value.str r) (.cons (.str s0) t)
              = (.cons (.str (joinp r s0)) (vjoin (Value.str r) t).1,
                 (vjoin (Value.str r) t).2) := by
            simp [vjoin, jnRoot, Value.strContent]
          rw [hjoin] at h
          obtain ⟨h1, -⟩ := Prod.mk.injEq .. ▸ h
          rw [← h1]
          simp [fixLeaf, Value.strContent, isabs_joinp r s0 hr]
      | arch s0 p0 =>
        by_cases ha : isabs s0 = true
        · simp only [fixLeaf, Value.strContent, ha, if_true] at h
          obtain ⟨rfl, -⟩ := Prod.mk.injEq .. ▸ h
          simp [fixLeaf, Value.strContent, ha]
        · simp only [fixLeaf, Value.strContent, ha, Bool.false_eq_true, if_false] at h
          have hjoin : vjoin (Value.str r) (.cons (.arch s0 p0) t)
              = (.cons (.str (joinp r s0)) (vjoin (Value.str r) t).1,
                 (vjoin (Value.str r) t).2) := by
            simp [vjoin, jnRoot, Value.strContent]
          rw [hjoin] at h
          obtain ⟨h1, -⟩ := Prod.mk.injEq .. ▸ h
          rw [← h1]
          simp [fixLeaf, Value.strContent, isabs_joinp r s0 hr]
      | null =>
        simp only [fixLeaf, Value.strContent] at h
        obtain ⟨rfl, -⟩ := Prod.mk.injEq .. ▸ h
        simp [fixLeaf, Value.strContent]
      | int n0 =>
        simp only [fixLeaf, Value.strContent] at h
        obtain ⟨rfl, -⟩ := Prod.mk.injEq .. ▸ h
        simp [fixLeaf, Value.strContent]
      | bool b0 =>
        simp only [fixLeaf, Value.strContent] at h
        obtain ⟨rfl, -⟩ := Prod.mk.injEq .. ▸ h
        simp [fixLeaf, Value.strContent]
      | seq l0 =>
        simp only [fixLeaf, Value.strContent] at h
        obtain ⟨rfl, -⟩ := Prod.mk.injEq .. ▸ h
        simp [fixLeaf, Value.strContent]
      | map m0 =>
        simp only [fixLeaf, Value.strContent] at h
        obtain ⟨rfl, -⟩ := Prod.mk.injEq .. ▸ h
        simp [fixLeaf, Value.strContent]
  | null =>
    obtain ⟨rfl, -⟩ := Prod.mk.injEq .. ▸ h
    rfl
  | int n =>
    obtain ⟨rfl, -⟩ := Prod.mk.injEq .. ▸ h
    rfl
  | bool b =>
    obtain ⟨rfl, -⟩ := Prod.mk.injEq .. ▸ h
    rfl
  | map m =>
    obtain ⟨rfl, -⟩ := Prod.mk.injEq .. ▸ h
    rfl

def fixO_idem (r : String) (hr : isabs r = true) :
    (d : Obj) → ∀ d', fixO (.str r) d = (d', none) → fixO (.str r) d' = (d', none)
  | .nil => by
    intro d' h
    obtain ⟨h1, -⟩ := Prod.mk.injEq .. ▸ h
    rw [← h1]
    rfl
  | .cons k v rest => by
    intro d' h
    cases v with
    | map m =>
      cases h2 : (fixO (Value.str r) m).2 with
      | some e =>
        simp only [fixO, h2] at h
        simp at h
      | none =>
        simp only [fixO, h2] at h
        obtain ⟨h1, h3⟩ := Prod.mk.injEq .. ▸ h
        have hm : fixO (Value.str r) m = ((fixO (Value.str r) m).1, none) := by
          rw [← h2]
        have hrest : fixO (Value.str r) rest = ((fixO (Value.str r) rest).1, none) := by
          rw [← h3]
        have ihm := fixO_idem r hr m _ hm
        have ihrest := fixO_idem r hr rest _ hrest
        rw [← h1]
        simp only [fixO, ihm, ihrest]
    | null => exact idem_step_nonmap k .null rest rfl d' h
    | str s => exact idem_step_nonmap k (.str s) rest rfl d' h
    | int n => exact idem_step_nonmap k (.int n) rest rfl d' h
    | bool b => exact idem_step_nonmap k (.bool b) rest rfl d' h
    | seq l => exact idem_step_nonmap k (.seq l) rest rfl d' h
    | arch s p => exact idem_step_nonmap k (.arch s p) rest rfl d' h
where
  idem_step_nonmap (k : String) (v : Value) (rest : Obj) (hvm : v.isMap = false) :
      ∀ d', fixO (.str r) (.cons k v rest) = (d', none) →
        fixO (.str r) d' = (d', none) := by
    intro d' h
    rw [fixO_cons_nonmap _ _ _ _ hvm] at h
    by_cases hk : k ∈ pathKeys
    · rw [if_pos hk] at h
      cases h2 : (fixLeaf (Value.str r) v).2 with
      | some e => rw [h2] at h; simp at h
      | none =>
        rw [h2] at h
        obtain ⟨h1, h3⟩ := Prod.mk.injEq .. ▸ h
        have hleaf : fixLeaf (Value.str r) v = ((fixLeaf (Value.str r) v).1, none) := by
          rw [← h2]
        have hrest : fixO (Value.str r) rest = ((fixO (Value.str r) rest).1, none) := by
          rw [← h3]
        have hidem := fixLeaf_idem r hr v _ hleaf
        have ihrest := fixO_idem r hr rest _ hrest
        rw [← h1]
        rw [fixO_cons_nonmap _ _ _ _ (fixLeaf_not_map _ v hvm), if_pos hk, hidem]
        simp [ihrest]
    · rw [if_neg hk] at h
      obtain ⟨h1, h3⟩ := Prod.mk.injEq .. ▸ h
      have hrest : fixO (Value.str r) rest = ((fixO (Value.str r) rest).1, none) := by
        rw [← h3]
      have ihrest := fixO_idem r hr rest _ hrest
      rw [← h1]
      rw [fixO_cons_nonmap _ _ _ _ hvm, if_neg hk]
      simp [ihrest]

/-- C6 (amended): for an absolute root `r`, (a) on documents whose
path-like values are canonical relative paths (`goodO`), `fix_paths`
succeeds and `rel_paths` inverts it exactly; and (b) `fix_paths` is
idempotent on every document it successfully normalizes.  (Unrestricted,
both laws fail — see the counterexample.) -/
theorem c6_roundtrip_idempotent (projects : Reg) (r cwd : String) (d : Obj)
    (hr : isabs r = true) :
    (goodO d = true →
      (fix_paths projects d (some (.str r)) none).2 = none
      ∧ rel_paths projects cwd (fix_paths projects d (some (.str r)) none).1
          (some (.str r)) none = (d, none))
    ∧ (∀ d', fix_paths projects d (some (.str r)) none = (d', none) →
        fix_paths projects d' (some (.str r)) none = (d', none)) := by
  constructor
  · intro hg
    have h := goodO_fix_rel r cwd hr d hg
    exact ⟨h.1, h.2⟩
  · intro d' h
    exact fixO_idem r hr d d' h

/-- C6 (witness). -/
theorem c6_witness :
    rel_paths [] "/"
        (fix_paths [] (.cons "outdir" (.str "out") .nil) (some (.str "/proj")) none).1
        (some (.str "/proj")) none
      = (.cons "outdir" (.str "out") .nil, none) :=
  ((c6_roundtrip_idempotent [] "/proj" "/" (.cons "outdir" (.str "out") .nil)
      (by decide)).1 (by decide)).2
